import Mathlib

/-!
# INE5429-Security: pseudorandom generators and probabilistic primality tests

A shallow embedding of `src/main.go`.

* `big.Int` values that the program only ever holds as non-negative numbers are
  natural numbers; candidates handed to the tests are non-negative.
* `uint32` and `uint64` arithmetic is written on natural numbers with an explicit
  reduction modulo `2 ^ 32` or `2 ^ 64`; Go `int` values are integers.
* The two sources of randomness are parameters: the clock reading converted by
  `uint32(time.Now().UnixNano())` is the `seed` of a `Draw`, and the value
  returned by `rand.Intn` is its `shift`.
* The `for cond { ... }` loops of the program carry an iteration budget
  (`fuel`); a run that is still looping when the budget is spent is reported as
  `none` (generators) or `Run.outOfFuel` (tests).
-/

namespace INE5429

/-! ## Library functions -/

/-- Result of running one of the primality tests. -/
inductive Run (α : Type) where
  /-- The function returned the value. -/
  | done (v : α)
  /-- The function stopped with a run-time panic. -/
  | crash
  /-- A loop was still running when the iteration budget ran out. -/
  | outOfFuel
  deriving DecidableEq, Repr

/-- Worker of `BitLen`: counts the halvings needed to reach zero. -/
def bitLenAux : Nat → Nat → Nat
  | 0, _ => 0
  | fuel + 1, n => if n = 0 then 0 else bitLenAux fuel (n / 2) + 1

/-- The method `(*big.Int).BitLen`: the length in bits of a non-negative number,
the bit length of `0` being `0`. -/
def BitLen (n : Nat) : Nat := bitLenAux n n

/-- The method `(*big.Int).Exp` on non-negative arguments: `x ^ y` reduced modulo `m`,
and `x ^ y` itself when the modulus is `nil` or zero. -/
def Exp (x y m : Nat) : Nat := if m = 0 then x ^ y else x ^ y % m

/-- The function `rand.Intn`: it panics when its argument is not positive, and
otherwise returns the drawn value `r`, which lies in `[0, k)`. -/
def Intn (k : Int) (r : Nat) : Run Nat := if k ≤ 0 then Run.crash else Run.done r

/-- Conversion `uint(v)` of a Go `int` (64-bit words). -/
def toUint (v : Int) : Nat := (v % 2 ^ 64).toNat

/-! ## Xorshift (`main.go`, lines 12-27) -/

/-- One update of the 32-bit state: `x ^= x << 13; x ^= x >> 17; x ^= x << 5`. -/
def xorshiftStep (x : Nat) : Nat :=
  let x1 := x ^^^ ((x <<< 13) % 2 ^ 32)
  let x2 := x1 ^^^ (x1 >>> 17)
  x2 ^^^ ((x2 <<< 5) % 2 ^ 32)

/-- The loop `for retorno.BitLen() < nBits` of `Xorshift`, from state `x` and
accumulator `retorno`; the result is the accumulator at loop exit. -/
def XorshiftLoop : Nat → Nat → Nat → Int → Option Nat
  | 0, _, retorno, nBits =>
    if (BitLen retorno : Int) < nBits then none else some retorno
  | fuel + 1, x, retorno, nBits =>
    if (BitLen retorno : Int) < nBits then
      let x3 := xorshiftStep x
      XorshiftLoop fuel x3 ((retorno <<< 32) ||| x3) nBits
    else some retorno

/-- The function `Xorshift`, with the clock-derived `uint32` seed as a parameter. -/
def Xorshift (fuel seed : Nat) (nBits : Int) : Option Nat :=
  match XorshiftLoop fuel seed 0 nBits with
  | none => none
  | some retorno =>
    some (Int.natAbs ((retorno >>> toUint ((BitLen retorno : Int) - nBits) : Nat) : Int))

/-! ## LCG (`main.go`, lines 31-51) -/

/-- One update of the LCG state: `xN = (xN * a + c) mod m` with `a = 22695477`,
`c = 1` and `m = 2 ^ 32`. -/
def lcgStep (xN : Nat) : Nat := (xN * 22695477 + 1) % Exp 2 32 0

/-- The loop `for retorno.BitLen() < nBits` of `LCG`. -/
def LCGLoop : Nat → Nat → Nat → Int → Option Nat
  | 0, _, retorno, nBits =>
    if (BitLen retorno : Int) < nBits then none else some retorno
  | fuel + 1, xN, retorno, nBits =>
    if (BitLen retorno : Int) < nBits then
      let xN1 := lcgStep xN
      LCGLoop fuel xN1 ((retorno <<< BitLen xN1) ||| xN1) nBits
    else some retorno

/-- The function `LCG`, with the absolute value of the clock reading as the
initial state `xN`. -/
def LCG (fuel xN : Nat) (nBits : Int) : Option Nat :=
  match LCGLoop fuel xN 0 nBits with
  | none => none
  | some retorno => some (retorno >>> toUint ((BitLen retorno : Int) - nBits))

/-! ## Witness sampling (`main.go`, lines 82 and 125) -/

/-- Randomness consumed by one trial: the `uint32` clock seed of the `Xorshift`
call and the value returned by `rand.Intn`. -/
structure Draw where
  seed : Nat
  shift : Nat
  deriving DecidableEq, Repr

/-- The expression
`big.NewInt(0).Rsh(Xorshift(n.BitLen()), uint(rand.Intn(n.BitLen()-1)))`:
the call of `Xorshift` is evaluated first, then the call of `rand.Intn`, whose
result is a non-negative `int`, so that `uint` leaves it unchanged. -/
def sampleWitness (fuel n : Nat) (dr : Draw) : Run Nat :=
  match Xorshift fuel dr.seed (BitLen n) with
  | none => Run.outOfFuel
  | some v =>
    match Intn ((BitLen n : Int) - 1) dr.shift with
    | Run.done s => Run.done (v >>> s)
    | Run.crash => Run.crash
    | Run.outOfFuel => Run.outOfFuel

/-! ## Miller-Rabin (`main.go`, lines 58-105) -/

/-- The decomposition loop of `MillerRabin`: while `d` is even, add one to the
`uint64` counter `r` and halve `d`. The result is `(r, d)` at loop exit. -/
def decompose : Nat → Nat → Nat → Option (Nat × Nat)
  | 0, r, d => if d % 2 = 0 then none else some (r, d)
  | fuel + 1, r, d =>
    if d % 2 = 0 then decompose fuel ((r + 1) % 2 ^ 64) (d >>> 1) else some (r, d)

/-- The inner loop `for j := uint64(0); j < (r - 1); j++` of `MillerRabin`, with
`k` iterations left: the value of `possiblePrime` when the loop is left. -/
def squareLoop : Nat → Nat → Nat → Nat → Bool
  | 0, _, _, _ => false
  | k + 1, x, n, nMinus1 =>
    let x1 := Exp x 2 n
    if x1 = nMinus1 then true else squareLoop k x1 n nMinus1

/-- The body of one trial of `MillerRabin` once the witness `a` is drawn: `true`
when the trial loop goes on to the next trial (by `continue`, or with
`possiblePrime` set), `false` when `return false` is executed. The bound `r - 1`
of the inner loop is computed on `uint64`. -/
def trialPasses (n d r nMinus1 a : Nat) : Bool :=
  let x := Exp a d n
  if x = 1 ∨ x = nMinus1 then true
  else squareLoop ((r + 2 ^ 64 - 1) % 2 ^ 64) x n nMinus1

/-- The trial loop `for i := 0; i < nTests; i++` of `MillerRabin`, with `k`
trials left and `i` the index of the next one. -/
def mrTrials (fuel : Nat) (n d r nMinus1 : Nat) (rnd : Nat → Draw) : Nat → Nat → Run Bool
  | 0, _ => Run.done true
  | k + 1, i =>
    match sampleWitness fuel n (rnd i) with
    | Run.done a =>
      if trialPasses n d r nMinus1 a then mrTrials fuel n d r nMinus1 rnd k (i + 1)
      else Run.done false
    | Run.crash => Run.crash
    | Run.outOfFuel => Run.outOfFuel

/-- The function `MillerRabin` on a non-negative candidate; `rnd i` is the
randomness of trial `i`. -/
def MillerRabin (fuel n : Nat) (rnd : Nat → Draw) : Run Bool :=
  if n = 2 ∨ n = 3 then Run.done true
  else if n % 2 = 0 then Run.done false
  else
    match decompose fuel 0 (n - 1) with
    | none => Run.outOfFuel
    | some (r, d) => mrTrials fuel n d r (n - 1) rnd 20 0

/-! ## Fermat (`main.go`, lines 111-132) -/

/-- The trial loop `for i := 0; i < nTests; i++` of `Fermat`, with `k` trials
left and `i` the index of the next one. For `n = 0` the program holds
`nMinus1 = -1`, but the witness sampling panics before that value is used. -/
def fermatTrials (fuel : Nat) (n : Nat) (rnd : Nat → Draw) : Nat → Nat → Run Bool
  | 0, _ => Run.done true
  | k + 1, i =>
    let nMinus1 := n - 1
    match sampleWitness fuel n (rnd i) with
    | Run.done a =>
      if Exp a nMinus1 n ≠ 1 then Run.done false
      else fermatTrials fuel n rnd k (i + 1)
    | Run.crash => Run.crash
    | Run.outOfFuel => Run.outOfFuel

/-- The function `Fermat` on a non-negative candidate; `rnd i` is the randomness
of trial `i`. -/
def Fermat (fuel n : Nat) (rnd : Nat → Draw) : Run Bool :=
  if n = 1 ∨ n = 4 then Run.done false
  else if n = 2 ∨ n = 3 then Run.done true
  else fermatTrials fuel n rnd 20 0

/-! ## Randomness admitted by the claims -/

/-- The randomness of one trial for candidate `n` is admissible: the clock seed is a
nonzero 32-bit word and the shift amount lies in `[0, BitLen n - 2]`. -/
def ValidDraw (n : Nat) (dr : Draw) : Prop :=
  dr.seed ≠ 0 ∧ dr.seed < 2 ^ 32 ∧ dr.shift + 2 ≤ BitLen n

/-! ## Strong probable prime bases -/

/-- The number `a` is a strong probable prime base for `n`: with `n - 1 = d * 2 ^ r` and `d`
odd, either `a ^ d mod n = 1` or `a ^ (d * 2 ^ j) mod n = n - 1` for some `j` with
`0 ≤ j ≤ r - 1`. -/
def StrongProbablePrimeBase (n a : Nat) : Prop :=
  ∃ d r : Nat, d % 2 = 1 ∧ n - 1 = d * 2 ^ r ∧
    (a ^ d % n = 1 ∨ ∃ j, j < r ∧ a ^ (d * 2 ^ j) % n = n - 1)

/-! ## Bit length -/

theorem bitLenAux_le_iff (fuel : Nat) : ∀ n k : Nat, n ≤ fuel → (bitLenAux fuel n ≤ k ↔ n < 2 ^ k) := by
  induction fuel with
  | zero =>
    intro n k hn
    have h0 : n = 0 := by omega
    subst h0
    simp [bitLenAux]
  | succ f ih =>
    intro n k hn
    by_cases h0 : n = 0
    · subst h0
      simp [bitLenAux]
    · simp only [bitLenAux, h0, if_false]
      cases k with
      | zero =>
        simp
        omega
      | succ k =>
        have hle : n / 2 ≤ f := by omega
        rw [Nat.add_le_add_iff_right, ih (n / 2) k hle, pow_succ]
        omega

theorem BitLen_le_iff (n k : Nat) : BitLen n ≤ k ↔ n < 2 ^ k :=
  bitLenAux_le_iff n n k le_rfl

theorem lt_BitLen_iff (n k : Nat) : k < BitLen n ↔ 2 ^ k ≤ n := by
  rw [← not_le, BitLen_le_iff, not_lt]

theorem lt_two_pow_BitLen (n : Nat) : n < 2 ^ BitLen n :=
  (BitLen_le_iff n (BitLen n)).mp le_rfl

theorem BitLen_eq_zero_iff (n : Nat) : BitLen n = 0 ↔ n = 0 := by
  rw [← Nat.le_zero, BitLen_le_iff]
  simp

theorem BitLen_zero : BitLen 0 = 0 := (BitLen_eq_zero_iff 0).mpr rfl

theorem BitLen_pos_iff (n : Nat) : 0 < BitLen n ↔ n ≠ 0 := by
  rw [Nat.pos_iff_ne_zero, Ne, BitLen_eq_zero_iff]

theorem two_pow_pred_BitLen_le (n : Nat) (h : n ≠ 0) : 2 ^ (BitLen n - 1) ≤ n := by
  have hp := (BitLen_pos_iff n).mpr h
  exact (lt_BitLen_iff n (BitLen n - 1)).mp (by omega)

/-- Characterisation of the bit length of a nonzero number. -/
theorem BitLen_eq_of_bounds (n k : Nat) (hlo : 2 ^ k ≤ n) (hhi : n < 2 ^ (k + 1)) :
    BitLen n = k + 1 := by
  have h1 := (BitLen_le_iff n (k + 1)).mpr hhi
  have h2 := (lt_BitLen_iff n k).mpr hlo
  omega

/-- Appending `k` low bits `x` to a nonzero number adds `k` to its bit length. -/
theorem BitLen_shiftLeft_or (r x k : Nat) (hr : r ≠ 0) (hx : x < 2 ^ k) :
    BitLen ((r <<< k) ||| x) = BitLen r + k := by
  have hor : (r <<< k) ||| x = 2 ^ k * r + x := by
    rw [Nat.shiftLeft_eq, Nat.mul_comm, Nat.mul_add_lt_is_or hx]
  rw [hor]
  have hlo := two_pow_pred_BitLen_le r hr
  have hhi := lt_two_pow_BitLen r
  have hp := (BitLen_pos_iff r).mpr hr
  have e : BitLen r + k = (BitLen r - 1 + k) + 1 := by omega
  rw [e]
  apply BitLen_eq_of_bounds
  · calc 2 ^ (BitLen r - 1 + k) = 2 ^ k * 2 ^ (BitLen r - 1) := by rw [pow_add, Nat.mul_comm]
      _ ≤ 2 ^ k * r := Nat.mul_le_mul_left _ hlo
      _ ≤ 2 ^ k * r + x := Nat.le_add_right _ _
  · have h1 : r + 1 ≤ 2 ^ BitLen r := hhi
    calc 2 ^ k * r + x < 2 ^ k * r + 2 ^ k := by omega
      _ = 2 ^ k * (r + 1) := by ring
      _ ≤ 2 ^ k * 2 ^ BitLen r := Nat.mul_le_mul_left _ h1
      _ = 2 ^ (BitLen r - 1 + k + 1) := by
        rw [← pow_add]
        congr 1
        omega

theorem zero_shiftLeft_or (x k : Nat) : ((0 : Nat) <<< k) ||| x = x := by
  simp

/-- Dropping `k` low bits removes `k` from the bit length. -/
theorem BitLen_shiftRight (n k : Nat) : BitLen (n >>> k) = BitLen n - k := by
  apply le_antisymm
  · rw [BitLen_le_iff, Nat.shiftRight_eq_div_pow]
    have h := lt_two_pow_BitLen n
    by_cases hk : k ≤ BitLen n
    · rw [Nat.div_lt_iff_lt_mul (Nat.two_pow_pos k), ← pow_add]
      have e : BitLen n - k + k = BitLen n := by omega
      rw [e]
      exact h
    · have e : BitLen n - k = 0 := by omega
      rw [e, pow_zero, Nat.lt_one_iff]
      apply Nat.div_eq_of_lt
      exact lt_of_lt_of_le h (Nat.pow_le_pow_right (by norm_num) (by omega))
  · by_cases hk : BitLen n ≤ k
    · omega
    · have hn : n ≠ 0 := by
        intro h0
        rw [h0, BitLen_zero] at hk
        omega
      have hlo := two_pow_pred_BitLen_le n hn
      have hlt : BitLen n - k - 1 < BitLen (n >>> k) := by
        rw [lt_BitLen_iff, Nat.shiftRight_eq_div_pow, Nat.le_div_iff_mul_le (Nat.two_pow_pos k),
          ← pow_add]
        have e : BitLen n - k - 1 + k = BitLen n - 1 := by omega
        rw [e]
        exact hlo
      omega

/-! ## Xorshift -/

theorem xor_shiftLeft_mod_ne_zero (x k : Nat) (hk : 0 < k) (hx : x ≠ 0) :
    x ^^^ ((x <<< k) % 2 ^ 32) ≠ 0 := by
  intro h
  rw [Nat.xor_eq_zero] at h
  have hlt : x < 2 ^ 32 := by
    rw [h]
    exact Nat.mod_lt _ (Nat.two_pow_pos 32)
  have hdvd : 2 ^ 32 ∣ x * (2 ^ k - 1) := by
    have h1 : (x <<< k) % 2 ^ 32 = x % 2 ^ 32 := by
      rw [Nat.mod_eq_of_lt hlt]
      exact h.symm
    have h2 : x ≤ x <<< k := by
      rw [Nat.shiftLeft_eq]
      exact Nat.le_mul_of_pos_right x (Nat.two_pow_pos k)
    have h3 := (Nat.modEq_iff_dvd' h2).mp h1.symm
    have e : x <<< k - x = x * (2 ^ k - 1) := by
      rw [Nat.shiftLeft_eq, Nat.mul_sub, Nat.mul_one]
    rwa [e] at h3
  have hodd : Nat.Coprime (2 ^ 32) (2 ^ k - 1) := by
    apply Nat.Coprime.pow_left
    rw [Nat.coprime_comm, Nat.coprime_two_right]
    have : 2 ^ k = 2 * 2 ^ (k - 1) := by
      rw [← pow_succ']
      congr 1
      omega
    have hp := Nat.two_pow_pos (k - 1)
    exact ⟨2 ^ (k - 1) - 1, by omega⟩
  have hx2 : 2 ^ 32 ∣ x := hodd.dvd_of_dvd_mul_right hdvd
  exact hx (Nat.eq_zero_of_dvd_of_lt hx2 hlt)

theorem xor_shiftRight_ne_zero (x k : Nat) (hk : 0 < k) (hx : x ≠ 0) :
    x ^^^ (x >>> k) ≠ 0 := by
  intro h
  rw [Nat.xor_eq_zero, Nat.shiftRight_eq_div_pow] at h
  have h2 : 2 ≤ 2 ^ k := by
    calc 2 = 2 ^ 1 := by norm_num
      _ ≤ 2 ^ k := Nat.pow_le_pow_right (by norm_num) hk
  have h3 : x / 2 ^ k < x := Nat.div_lt_self (Nat.pos_of_ne_zero hx) h2
  omega

/-- The xorshift update never maps a nonzero state to zero. -/
theorem xorshiftStep_ne_zero (x : Nat) (hx : x ≠ 0) : xorshiftStep x ≠ 0 := by
  unfold xorshiftStep
  exact xor_shiftLeft_mod_ne_zero _ 5 (by norm_num)
    (xor_shiftRight_ne_zero _ 17 (by norm_num) (xor_shiftLeft_mod_ne_zero x 13 (by norm_num) hx))

/-- The xorshift update keeps the state a 32-bit word. -/
theorem xorshiftStep_lt (x : Nat) (hx : x < 2 ^ 32) : xorshiftStep x < 2 ^ 32 := by
  unfold xorshiftStep
  have h1 : x ^^^ ((x <<< 13) % 2 ^ 32) < 2 ^ 32 :=
    Nat.xor_lt_two_pow hx (Nat.mod_lt _ (Nat.two_pow_pos 32))
  have h2 : (x ^^^ ((x <<< 13) % 2 ^ 32)) ^^^ ((x ^^^ ((x <<< 13) % 2 ^ 32)) >>> 17) < 2 ^ 32 := by
    apply Nat.xor_lt_two_pow h1
    rw [Nat.shiftRight_eq_div_pow]
    exact lt_of_le_of_lt (Nat.div_le_self _ _) h1
  exact Nat.xor_lt_two_pow h2 (Nat.mod_lt _ (Nat.two_pow_pos 32))

/-- One packing round of `Xorshift` with a nonzero 32-bit word: the accumulator's bit
length grows by at least one and at most 32. -/
theorem BitLen_pack32 (r x : Nat) (hx0 : x ≠ 0) (hx : x < 2 ^ 32) :
    BitLen r + 1 ≤ BitLen ((r <<< 32) ||| x) ∧ BitLen ((r <<< 32) ||| x) ≤ BitLen r + 32 := by
  by_cases hr : r = 0
  · subst hr
    rw [zero_shiftLeft_or, BitLen_zero]
    have h1 := (BitLen_pos_iff x).mpr hx0
    have h2 := (BitLen_le_iff x 32).mpr hx
    omega
  · rw [BitLen_shiftLeft_or r x 32 hr hx]
    omega

/-- More fuel does not change what a finished run of the packing loop returned. -/
theorem XorshiftLoop_fuel_mono (nBits : Int) (k : Nat) :
    ∀ (fuel x r v : Nat), XorshiftLoop fuel x r nBits = some v →
      XorshiftLoop (fuel + k) x r nBits = some v := by
  intro fuel
  induction fuel with
  | zero =>
    intro x r v h
    by_cases hc : (BitLen r : Int) < nBits
    · simp [XorshiftLoop, hc] at h
    · simp only [XorshiftLoop, hc, if_false] at h
      cases k with
      | zero => simp [XorshiftLoop, hc, h]
      | succ k => simpa [XorshiftLoop, hc] using h
  | succ f ih =>
    intro x r v h
    have e : f + 1 + k = (f + k) + 1 := by omega
    rw [e]
    by_cases hc : (BitLen r : Int) < nBits
    · simp only [XorshiftLoop, hc, if_true] at h ⊢
      exact ih _ _ _ h
    · simpa [XorshiftLoop, hc] using h

/-- From a nonzero 32-bit state the packing loop of `Xorshift` ends within
`nBits - BitLen retorno` rounds, with between `nBits` and `nBits + 31` bits packed. -/
theorem XorshiftLoop_spec (nBits : Int) :
    ∀ (fuel x r : Nat), x ≠ 0 → x < 2 ^ 32 → (BitLen r : Int) < nBits + 32 →
      (nBits - (BitLen r : Int)).toNat ≤ fuel →
      ∃ v, XorshiftLoop fuel x r nBits = some v ∧ nBits ≤ (BitLen v : Int) ∧
        (BitLen v : Int) < nBits + 32 := by
  intro fuel
  induction fuel with
  | zero =>
    intro x r _ _ hb hf
    have hc : ¬ (BitLen r : Int) < nBits := by omega
    exact ⟨r, by simp [XorshiftLoop, hc], by omega, hb⟩
  | succ f ih =>
    intro x r hx0 hx hb hf
    by_cases hc : (BitLen r : Int) < nBits
    · simp only [XorshiftLoop, hc, if_true]
      have hp := BitLen_pack32 r (xorshiftStep x) (xorshiftStep_ne_zero x hx0) (xorshiftStep_lt x hx)
      apply ih _ _ (xorshiftStep_ne_zero x hx0) (xorshiftStep_lt x hx)
      · omega
      · omega
    · exact ⟨r, by simp [XorshiftLoop, hc], by omega, hb⟩

theorem toUint_of_bounds (v : Int) (h0 : 0 ≤ v) (h1 : v < 2 ^ 64) : toUint v = v.toNat := by
  unfold toUint
  rw [Int.emod_eq_of_lt h0 h1]

/-- The trim step: shifting right by the excess leaves exactly `nBits` bits. -/
theorem BitLen_trim (r : Nat) (nBits : Int) (h0 : 0 ≤ nBits) (h1 : nBits ≤ (BitLen r : Int))
    (h2 : (BitLen r : Int) < nBits + 32) :
    (BitLen (r >>> toUint ((BitLen r : Int) - nBits)) : Int) = nBits := by
  rw [toUint_of_bounds _ (by omega) (by omega), BitLen_shiftRight]
  omega

/-! ## LCG -/

theorem lcgStep_lt (xN : Nat) : lcgStep xN < 2 ^ 32 := by
  unfold lcgStep Exp
  exact Nat.mod_lt _ (by norm_num)

theorem lcgStep_zero : lcgStep 0 = 1 := by decide

/-- One packing round of `LCG`: the accumulator's bit length grows by the bit length
of the word that is appended. -/
theorem BitLen_packVar (r x : Nat) :
    BitLen ((r <<< BitLen x) ||| x) = BitLen r + BitLen x := by
  by_cases hr : r = 0
  · subst hr
    rw [zero_shiftLeft_or, BitLen_zero, Nat.zero_add]
  · exact BitLen_shiftLeft_or r x (BitLen x) hr (lt_two_pow_BitLen x)

/-- The packing loop of `LCG` ends: a round whose word is zero adds no bit, but the
word after it is `1`, so two rounds always add at least one bit. -/
theorem LCGLoop_spec (nBits : Int) :
    ∀ (fuel xN r : Nat), (BitLen r : Int) < nBits + 32 →
      2 * (nBits - (BitLen r : Int)).toNat ≤ fuel + (if lcgStep xN = 0 then 0 else 1) →
      ∃ v, LCGLoop fuel xN r nBits = some v ∧ nBits ≤ (BitLen v : Int) ∧
        (BitLen v : Int) < nBits + 32 := by
  intro fuel
  induction fuel with
  | zero =>
    intro xN r hb hf
    have hi : (if lcgStep xN = 0 then 0 else 1) ≤ 1 := by split_ifs <;> omega
    have hc : ¬ (BitLen r : Int) < nBits := by omega
    exact ⟨r, by simp [LCGLoop, hc], by omega, hb⟩
  | succ f ih =>
    intro xN r hb hf
    by_cases hc : (BitLen r : Int) < nBits
    · simp only [LCGLoop, hc, if_true]
      have hlen := BitLen_packVar r (lcgStep xN)
      have hy32 := (BitLen_le_iff (lcgStep xN) 32).mpr (lcgStep_lt xN)
      by_cases hy : lcgStep xN = 0
      · rw [if_pos hy] at hf
        have hy0 : BitLen (lcgStep xN) = 0 := (BitLen_eq_zero_iff _).mpr hy
        have hnext : lcgStep (lcgStep xN) ≠ 0 := by
          rw [hy, lcgStep_zero]
          norm_num
        apply ih
        · omega
        · rw [if_neg hnext]
          omega
      · rw [if_neg hy] at hf
        have hypos := (BitLen_pos_iff _).mpr hy
        have hi : 0 ≤ (if lcgStep (lcgStep xN) = 0 then 0 else 1) := Nat.zero_le _
        apply ih
        · omega
        · omega
    · exact ⟨r, by simp [LCGLoop, hc], by omega, hb⟩

/-! ## Finished runs do not depend on the iteration budget -/

theorem Xorshift_fuel_mono (seed : Nat) (nBits : Int) (fuel k v : Nat)
    (h : Xorshift fuel seed nBits = some v) : Xorshift (fuel + k) seed nBits = some v := by
  unfold Xorshift at h ⊢
  cases hl : XorshiftLoop fuel seed 0 nBits with
  | none => simp [hl] at h
  | some r =>
    rw [XorshiftLoop_fuel_mono nBits k fuel seed 0 r hl]
    simpa [hl] using h

theorem decompose_fuel_mono (k : Nat) :
    ∀ (fuel r d : Nat) (p : Nat × Nat), decompose fuel r d = some p →
      decompose (fuel + k) r d = some p := by
  intro fuel
  induction fuel with
  | zero =>
    intro r d p h
    by_cases hc : d % 2 = 0
    · simp [decompose, hc] at h
    · simp only [decompose, hc, if_false] at h
      cases k with
      | zero => simp [decompose, hc, h]
      | succ k => simpa [decompose, hc] using h
  | succ f ih =>
    intro r d p h
    have e : f + 1 + k = (f + k) + 1 := by omega
    rw [e]
    by_cases hc : d % 2 = 0
    · simp only [decompose, hc, if_true] at h ⊢
      exact ih _ _ _ h
    · simpa [decompose, hc] using h

theorem sampleWitness_fuel_mono (fuel k n : Nat) (dr : Draw) (a : Nat)
    (h : sampleWitness fuel n dr = Run.done a) :
    sampleWitness (fuel + k) n dr = Run.done a := by
  unfold sampleWitness at h ⊢
  cases hx : Xorshift fuel dr.seed (BitLen n) with
  | none => simp [hx] at h
  | some v =>
    rw [Xorshift_fuel_mono _ _ fuel k v hx]
    simpa [hx] using h

theorem mrTrials_fuel_mono (fuel k n d r nMinus1 : Nat) (rnd : Nat → Draw) (b : Bool) :
    ∀ (t i : Nat), mrTrials fuel n d r nMinus1 rnd t i = Run.done b →
      mrTrials (fuel + k) n d r nMinus1 rnd t i = Run.done b := by
  intro t
  induction t with
  | zero =>
    intro i h
    simpa [mrTrials] using h
  | succ t ih =>
    intro i h
    cases hw : sampleWitness fuel n (rnd i) with
    | done a =>
      simp only [mrTrials, hw, sampleWitness_fuel_mono fuel k n (rnd i) a hw] at h ⊢
      split_ifs at h ⊢ with h1
      · exact ih _ h
      · exact h
    | crash => simp [mrTrials, hw] at h
    | outOfFuel => simp [mrTrials, hw] at h

/-- A verdict returned by `MillerRabin` is returned again under any larger budget. -/
theorem MillerRabin_fuel_mono (fuel k n : Nat) (rnd : Nat → Draw) (b : Bool)
    (h : MillerRabin fuel n rnd = Run.done b) : MillerRabin (fuel + k) n rnd = Run.done b := by
  unfold MillerRabin at h ⊢
  split_ifs at h ⊢ with h1 h2
  · exact h
  · exact h
  · cases hd : decompose fuel 0 (n - 1) with
    | none => simp [hd] at h
    | some p =>
      rw [decompose_fuel_mono k fuel 0 (n - 1) p hd]
      rw [hd] at h
      exact mrTrials_fuel_mono fuel k n p.2 p.1 (n - 1) rnd b 20 0 h

theorem fermatTrials_fuel_mono (fuel k n : Nat) (rnd : Nat → Draw) (b : Bool) :
    ∀ (t i : Nat), fermatTrials fuel n rnd t i = Run.done b →
      fermatTrials (fuel + k) n rnd t i = Run.done b := by
  intro t
  induction t with
  | zero =>
    intro i h
    simpa [fermatTrials] using h
  | succ t ih =>
    intro i h
    cases hw : sampleWitness fuel n (rnd i) with
    | done a =>
      simp only [fermatTrials, hw, sampleWitness_fuel_mono fuel k n (rnd i) a hw] at h ⊢
      split_ifs at h ⊢ with h1
      · exact h
      · exact ih _ h
    | crash => simp [fermatTrials, hw] at h
    | outOfFuel => simp [fermatTrials, hw] at h

/-- A verdict returned by `Fermat` is returned again under any larger budget. -/
theorem Fermat_fuel_mono (fuel k n : Nat) (rnd : Nat → Draw) (b : Bool)
    (h : Fermat fuel n rnd = Run.done b) : Fermat (fuel + k) n rnd = Run.done b := by
  unfold Fermat at h ⊢
  split_ifs at h ⊢ with h1 h2
  · exact h
  · exact h
  · exact fermatTrials_fuel_mono fuel k n rnd b 20 0 h

/-! ## Runs from admissible randomness -/

/-- From a nonzero 32-bit seed `Xorshift` returns a value of exactly `nBits` bits. -/
theorem Xorshift_spec (seed : Nat) (nBits : Int) (fuel : Nat)
    (hseed0 : seed ≠ 0) (hseed : seed < 2 ^ 32) (hn : 1 ≤ nBits) (hfuel : nBits.toNat ≤ fuel) :
    ∃ v : Nat, Xorshift fuel seed nBits = some v ∧ (BitLen v : Int) = nBits := by
  obtain ⟨r, hr, hlo, hhi⟩ := XorshiftLoop_spec nBits fuel seed 0 hseed0 hseed
    (by rw [BitLen_zero]; omega) (by rw [BitLen_zero]; simpa using hfuel)
  refine ⟨r >>> toUint ((BitLen r : Int) - nBits), ?_, ?_⟩
  · simp [Xorshift, hr]
  · exact BitLen_trim r nBits (by omega) hlo hhi

/-- With an admissible draw the witness sampling returns, and the witness has
`BitLen n - shift` bits. -/
theorem sampleWitness_spec (fuel n : Nat) (dr : Draw) (hv : ValidDraw n dr)
    (hfuel : BitLen n ≤ fuel) :
    ∃ a : Nat, sampleWitness fuel n dr = Run.done a ∧ BitLen a = BitLen n - dr.shift := by
  obtain ⟨hs0, hs, hsh⟩ := hv
  obtain ⟨v, hx, hlen⟩ := Xorshift_spec dr.seed (BitLen n) fuel hs0 hs (by omega) (by simpa using hfuel)
  have hk : ¬ ((BitLen n : Int) - 1 ≤ 0) := by omega
  refine ⟨v >>> dr.shift, ?_, ?_⟩
  · simp [sampleWitness, hx, Intn, hk]
  · rw [BitLen_shiftRight]
    have : BitLen v = BitLen n := by exact_mod_cast hlen
    rw [this]

/-- The trial loop of `Fermat` returns false as soon as one of its trials draws a witness
whose power is not 1, provided that every trial draws a witness. -/
theorem fermatTrials_some_fail (fuel n : Nat) (rnd : Nat → Draw) (ws : Nat → Nat) :
    ∀ (k i : Nat),
      (∀ j, i ≤ j → j < i + k → sampleWitness fuel n (rnd j) = Run.done (ws j)) →
      (∃ j, i ≤ j ∧ j < i + k ∧ Exp (ws j) (n - 1) n ≠ 1) →
      fermatTrials fuel n rnd k i = Run.done false := by
  intro k
  induction k with
  | zero =>
    rintro i _ ⟨j, h1, h2, _⟩
    omega
  | succ k ih =>
    rintro i hs ⟨j, h1, h2, h3⟩
    have hi := hs i le_rfl (by omega)
    simp only [fermatTrials, hi]
    by_cases hp : Exp (ws i) (n - 1) n ≠ 1
    · rw [if_pos hp]
    · rw [if_neg hp]
      have hj : j ≠ i := by
        rintro rfl
        exact hp h3
      exact ih (i + 1) (fun j' hj1 hj2 => hs j' (by omega) (by omega))
        ⟨j, by omega, by omega, h3⟩

/-- The trial loop of `MillerRabin` returns false as soon as one of its trials draws a
witness that does not pass, provided that every trial draws a witness. -/
theorem mrTrials_some_fail (fuel n d r nMinus1 : Nat) (rnd : Nat → Draw) (ws : Nat → Nat) :
    ∀ (k i : Nat),
      (∀ j, i ≤ j → j < i + k → sampleWitness fuel n (rnd j) = Run.done (ws j)) →
      (∃ j, i ≤ j ∧ j < i + k ∧ trialPasses n d r nMinus1 (ws j) = false) →
      mrTrials fuel n d r nMinus1 rnd k i = Run.done false := by
  intro k
  induction k with
  | zero =>
    rintro i _ ⟨j, h1, h2, _⟩
    omega
  | succ k ih =>
    rintro i hs ⟨j, h1, h2, h3⟩
    have hi := hs i le_rfl (by omega)
    simp only [mrTrials, hi]
    by_cases hp : trialPasses n d r nMinus1 (ws i) = true
    · rw [if_pos hp]
      have hj : j ≠ i := by
        rintro rfl
        rw [hp] at h3
        exact Bool.noConfusion h3
      exact ih (i + 1) (fun j' hj1 hj2 => hs j' (by omega) (by omega))
        ⟨j, by omega, by omega, h3⟩
    · rw [if_neg hp]

/-- Admissible draws in all 20 trials give every trial a witness. -/
theorem exists_witnesses (fuel n : Nat) (rnd : Nat → Draw)
    (hv : ∀ i, i < 20 → ValidDraw n (rnd i)) (hfuel : BitLen n ≤ fuel) :
    ∃ ws : Nat → Nat, ∀ j, 0 ≤ j → j < 0 + 20 → sampleWitness fuel n (rnd j) = Run.done (ws j) := by
  have h : ∀ j, ∃ a, j < 20 → sampleWitness fuel n (rnd j) = Run.done a := by
    intro j
    by_cases hj : j < 20
    · obtain ⟨a, ha, _⟩ := sampleWitness_spec fuel n (rnd j) (hv j hj) hfuel
      exact ⟨a, fun _ => ha⟩
    · exact ⟨0, fun h => absurd h hj⟩
  choose ws hws using h
  exact ⟨ws, fun j _ hj => hws j (by omega)⟩

theorem decompose_eight (fuel : Nat) (hfuel : 3 ≤ fuel) : decompose fuel 0 8 = some (3, 1) := by
  have h := decompose_fuel_mono (fuel - 3) 3 0 8 (3, 1) (by decide)
  have e : 3 + (fuel - 3) = fuel := by omega
  rwa [e] at h

/-- On 6, 8 and 9 the Fermat trial fails for every witness `a` with `1 < a < n`, the
witness 8 of the candidate 9 apart. -/
theorem fermat_fails_small (n a : Nat) (hn : n = 6 ∨ n = 8 ∨ n = 9) (h1 : 2 ≤ a)
    (h2 : a < n) (h8 : a ≠ 8) : Exp a (n - 1) n ≠ 1 := by
  rcases hn with rfl | rfl | rfl
  · have h3 : a ≤ 5 := by omega
    interval_cases a <;> decide
  · have h3 : a ≤ 7 := by omega
    interval_cases a <;> decide
  · have h3 : a ≤ 7 := by omega
    interval_cases a <;> decide

/-- On 9 the Miller-Rabin trial fails for every witness between 2 and 7. -/
theorem trialPasses_nine (a : Nat) (h1 : 2 ≤ a) (h2 : a + 2 ≤ 9) :
    trialPasses 9 1 3 8 a = false := by
  have h3 : a ≤ 7 := by omega
  interval_cases a <;> decide

/-! ## Claims -/

/-- C1: for every nonzero 32-bit seed and every `nBits ≥ 1`, `Xorshift` returns once its
loop is allowed `nBits` rounds, and the value returned is a non-negative number whose bit
length is exactly `nBits`. -/
theorem Xorshift_returns_exact_bitLen (seed : Nat) (nBits : Int) (fuel : Nat)
    (hseed0 : seed ≠ 0) (hseed : seed < 2 ^ 32) (hn : 1 ≤ nBits) (hfuel : nBits.toNat ≤ fuel) :
    ∃ v : Nat, Xorshift fuel seed nBits = some v ∧ (0 : Int) ≤ (v : Int) ∧
      (BitLen v : Int) = nBits := by
  obtain ⟨v, hv, hlen⟩ := Xorshift_spec seed nBits fuel hseed0 hseed hn hfuel
  exact ⟨v, hv, Int.natCast_nonneg v, hlen⟩

theorem Xorshift_returns_exact_bitLen_witness :
    ∃ v : Nat, Xorshift 8 5 8 = some v ∧ (0 : Int) ≤ (v : Int) ∧ (BitLen v : Int) = 8 :=
  Xorshift_returns_exact_bitLen 5 8 8 (by decide) (by decide) (by decide) (by decide)

/-- C2: for every non-negative initial state and every `nBits ≥ 1`, `LCG` returns once
its loop is allowed `2 * nBits` rounds, and the value returned is a non-negative number
whose bit length is exactly `nBits`; rounds whose state is `0` add no bit. -/
theorem LCG_returns_exact_bitLen (xN : Nat) (nBits : Int) (fuel : Nat)
    (hn : 1 ≤ nBits) (hfuel : 2 * nBits.toNat ≤ fuel) :
    ∃ v : Nat, LCG fuel xN nBits = some v ∧ (0 : Int) ≤ (v : Int) ∧
      (BitLen v : Int) = nBits := by
  obtain ⟨r, hr, hlo, hhi⟩ := LCGLoop_spec nBits fuel xN 0
    (by rw [BitLen_zero]; omega)
    (by rw [BitLen_zero]; simp only [Nat.cast_zero, sub_zero]; omega)
  refine ⟨r >>> toUint ((BitLen r : Int) - nBits), ?_, Int.natCast_nonneg _, ?_⟩
  · simp [LCG, hr]
  · exact BitLen_trim r nBits (by omega) hlo hhi

theorem LCG_returns_exact_bitLen_witness :
    ∃ v : Nat, LCG 16 4294967295 8 = some v ∧ (0 : Int) ≤ (v : Int) ∧ (BitLen v : Int) = 8 :=
  LCG_returns_exact_bitLen 4294967295 8 16 (by decide) (by decide)

/-- C3 (fails on the code): `MillerRabin` can return false for a genuine prime. For the
prime 5, admissible randomness whose every trial draws clock seed 5 and shift 0 makes the
witness equal to 5 itself, and the test returns false under every budget of at least 3. -/
theorem MillerRabin_rejects_prime_five :
    Nat.Prime 5 ∧ ∃ rnd : Nat → Draw, (∀ i, ValidDraw 5 (rnd i)) ∧
      ∀ fuel : Nat, MillerRabin (fuel + 3) 5 rnd = Run.done false := by
  have hv : ValidDraw 5 ⟨5, 0⟩ := ⟨by decide, by decide, by decide⟩
  refine ⟨by norm_num, fun _ => ⟨5, 0⟩, fun _ => hv, ?_⟩
  intro fuel
  rw [Nat.add_comm]
  exact MillerRabin_fuel_mono 3 fuel 5 _ false (by decide)

/-- C4 (fails on the code): `Fermat` can reject a genuine prime. For the prime 5,
admissible randomness whose every trial draws clock seed 5 and shift 0 makes the witness
equal to 5 itself, and the test returns false under every budget of at least 3. -/
theorem Fermat_rejects_prime_five :
    Nat.Prime 5 ∧ ∃ rnd : Nat → Draw, (∀ i, ValidDraw 5 (rnd i)) ∧
      ∀ fuel : Nat, Fermat (fuel + 3) 5 rnd = Run.done false := by
  have hv : ValidDraw 5 ⟨5, 0⟩ := ⟨by decide, by decide, by decide⟩
  refine ⟨by norm_num, fun _ => ⟨5, 0⟩, fun _ => hv, ?_⟩
  intro fuel
  rw [Nat.add_comm]
  exact Fermat_fuel_mono 3 fuel 5 _ false (by decide)

/-- C5 (fails on the code): with admissible randomness both `MillerRabin` and `Fermat`
return true on the composite 9: when every trial draws clock seed 1 and shift 0 the
witness is 8, which passes every trial of both tests. The witness 8 lies outside the range
`1 < a < n/2` that the comments of both tests promise. -/
theorem tests_accept_nine :
    ∃ rnd : Nat → Draw, (∀ i, ValidDraw 9 (rnd i)) ∧
      ∀ fuel : Nat, MillerRabin (fuel + 4) 9 rnd = Run.done true ∧
        Fermat (fuel + 4) 9 rnd = Run.done true := by
  have hv9 : ValidDraw 9 ⟨1, 0⟩ := ⟨by decide, by decide, by decide⟩
  refine ⟨fun _ => ⟨1, 0⟩, fun _ => hv9, ?_⟩
  intro fuel
  rw [Nat.add_comm]
  exact ⟨MillerRabin_fuel_mono 4 fuel 9 _ true (by decide),
    Fermat_fuel_mono 4 fuel 9 _ true (by decide)⟩

/-- Verdicts on the small composites: whatever the budget and the draws, `MillerRabin`
returns false on 4, 6 and 8 and `Fermat` returns false on 1 and 4; and on each `n` among 6,
8 and 9, with admissible randomness and a budget of at least 4, both tests return false
whenever at least one of the 20 trials draws a witness `a` with `1 < a < n`, the witness 8
of the candidate 9 apart. -/
theorem small_composites_verdicts (fuel : Nat) (rnd : Nat → Draw) :
    MillerRabin fuel 4 rnd = Run.done false ∧ MillerRabin fuel 6 rnd = Run.done false ∧
    MillerRabin fuel 8 rnd = Run.done false ∧
    Fermat fuel 1 rnd = Run.done false ∧ Fermat fuel 4 rnd = Run.done false ∧
    ∀ n : Nat, (n = 6 ∨ n = 8 ∨ n = 9) → 4 ≤ fuel →
      (∀ i, i < 20 → ValidDraw n (rnd i)) →
      (∃ i a, i < 20 ∧ sampleWitness fuel n (rnd i) = Run.done a ∧ 1 < a ∧ a < n ∧ a ≠ 8) →
      MillerRabin fuel n rnd = Run.done false ∧ Fermat fuel n rnd = Run.done false := by
  refine ⟨by simp [MillerRabin], by simp [MillerRabin], by simp [MillerRabin],
    by simp [Fermat], by simp [Fermat], ?_⟩
  rintro n hn hfuel hv ⟨i, a, hi, hsa, ha1, ha2, ha8⟩
  have hlen : BitLen n ≤ fuel := by
    rcases hn with rfl | rfl | rfl
    · exact le_trans (by decide) hfuel
    · exact le_trans (by decide) hfuel
    · exact le_trans (by decide) hfuel
  obtain ⟨ws, hws⟩ := exists_witnesses fuel n rnd hv hlen
  have hwi : ws i = a := by
    have h := hws i (Nat.zero_le i) (by omega)
    rw [hsa] at h
    exact (Run.done.inj h).symm
  constructor
  · rcases hn with rfl | rfl | rfl
    · simp [MillerRabin]
    · simp [MillerRabin]
    · have hd : decompose fuel 0 (9 - 1) = some (3, 1) := decompose_eight fuel (by omega)
      have hne : ¬ ((9 : Nat) = 2 ∨ (9 : Nat) = 3) := by decide
      have hodd : ¬ ((9 : Nat) % 2 = 0) := by decide
      simp only [MillerRabin, hne, hodd, if_false, hd]
      exact mrTrials_some_fail fuel 9 1 3 8 rnd ws 20 0 hws
        ⟨i, Nat.zero_le i, by omega, by rw [hwi]; exact trialPasses_nine a ha1 (by omega)⟩
  · have hne1 : ¬ (n = 1 ∨ n = 4) := by omega
    have hne2 : ¬ (n = 2 ∨ n = 3) := by omega
    simp only [Fermat, hne1, hne2, if_false]
    exact fermatTrials_some_fail fuel n rnd ws 20 0 hws
      ⟨i, Nat.zero_le i, by omega, by rw [hwi]; exact fermat_fails_small n a hn ha1 ha2 ha8⟩

theorem small_composites_verdicts_witness :
    MillerRabin 4 9 (fun _ => ⟨1, 1⟩) = Run.done false ∧
      Fermat 4 9 (fun _ => ⟨1, 1⟩) = Run.done false :=
  (small_composites_verdicts 4 (fun _ => ⟨1, 1⟩)).2.2.2.2.2 9 (by decide) (by decide)
    (fun _ _ => ⟨by decide, by decide, by decide⟩)
    ⟨0, 4, by decide, by decide, by decide, by decide, by decide⟩

/-- C6 (fails on the code): the witness need not lie below the candidate. For the
candidate 5, of bit length 3, the admissible draw with clock seed 5 and shift 0 yields the
witness 5, which is not smaller than 5. -/
theorem sampleWitness_reaches_candidate :
    2 ≤ BitLen 5 ∧ ValidDraw 5 ⟨5, 0⟩ ∧
      ∃ a : Nat, (∀ fuel : Nat, sampleWitness (fuel + 3) 5 ⟨5, 0⟩ = Run.done a) ∧
        ¬ (1 < a ∧ a < 5) := by
  refine ⟨by decide, ⟨by decide, by decide, by decide⟩, 5, ?_, by decide⟩
  intro fuel
  rw [Nat.add_comm]
  exact sampleWitness_fuel_mono 3 fuel 5 _ 5 (by decide)

set_option exponentiation.threshold 1000 in
theorem Fermat_561_base : Fermat 10 561 (fun _ => ⟨1, 8⟩) = Run.done true := by decide

/-- C7: `Fermat` accepts the Carmichael number 561 = 3 * 11 * 17 on some runs: when every
trial draws clock seed 1 and shift 8 the witness is 2, and the test returns true under
every budget of at least 10. -/
theorem Fermat_accepts_carmichael_561 :
    ¬ Nat.Prime 561 ∧ 561 = 3 * 11 * 17 ∧
      ∃ rnd : Nat → Draw,
        (∀ i, (rnd i).seed ≠ 0 ∧ (rnd i).seed < 2 ^ 32 ∧ (rnd i).shift ≤ 8) ∧
        ∀ fuel : Nat, Fermat (fuel + 10) 561 rnd = Run.done true := by
  have hv : (1 : Nat) ≠ 0 ∧ (1 : Nat) < 2 ^ 32 ∧ (8 : Nat) ≤ 8 :=
    ⟨by decide, by decide, by decide⟩
  refine ⟨by norm_num, by norm_num, fun _ => ⟨1, 8⟩, fun _ => hv, ?_⟩
  intro fuel
  rw [Nat.add_comm]
  exact Fermat_fuel_mono 10 fuel 561 _ true Fermat_561_base

/-- C8: the special cases of `MillerRabin` use no randomness: it returns true on 2 and on
3 and false on every even number other than 2, whatever the budget and the draws. -/
theorem MillerRabin_special_cases (fuel n : Nat) (rnd : Nat → Draw)
    (heven : n % 2 = 0) (hne : n ≠ 2) :
    MillerRabin fuel 2 rnd = Run.done true ∧ MillerRabin fuel 3 rnd = Run.done true ∧
      MillerRabin fuel n rnd = Run.done false := by
  refine ⟨by simp [MillerRabin], by simp [MillerRabin], ?_⟩
  have h3 : n ≠ 3 := by omega
  simp [MillerRabin, hne, h3, heven]

theorem MillerRabin_special_cases_witness :
    MillerRabin 0 2 (fun _ => ⟨0, 0⟩) = Run.done true ∧
      MillerRabin 0 3 (fun _ => ⟨0, 0⟩) = Run.done true ∧
      MillerRabin 0 4 (fun _ => ⟨0, 0⟩) = Run.done false :=
  MillerRabin_special_cases 0 4 (fun _ => ⟨0, 0⟩) (by decide) (by decide)

/-- C9: the special cases of `Fermat` use no randomness: it returns false on 1 and on 4
and true on 2 and on 3, whatever the budget and the draws. -/
theorem Fermat_special_cases (fuel : Nat) (rnd : Nat → Draw) :
    Fermat fuel 1 rnd = Run.done false ∧ Fermat fuel 4 rnd = Run.done false ∧
      Fermat fuel 2 rnd = Run.done true ∧ Fermat fuel 3 rnd = Run.done true := by
  simp [Fermat]

theorem decompose_zero_none : ∀ (fuel r : Nat), decompose fuel r 0 = none := by
  intro fuel
  induction fuel with
  | zero => intro r; simp [decompose]
  | succ f ih => intro r; simp [decompose, ih]

/-- C10 (fails on the code): on the candidate 1 the decomposition loop of `MillerRabin`
starts from `d = 0`, which stays even for ever: under no budget does the loop end, and
the test never returns a verdict. -/
theorem MillerRabin_one_never_returns :
    (¬ ∃ (fuel : Nat) (p : Nat × Nat), decompose fuel 0 (1 - 1) = some p) ∧
      ∀ (fuel : Nat) (rnd : Nat → Draw), MillerRabin fuel 1 rnd = Run.outOfFuel := by
  constructor
  · rintro ⟨fuel, p, h⟩
    rw [decompose_zero_none] at h
    exact Option.noConfusion h
  · intro fuel rnd
    simp [MillerRabin, decompose_zero_none]


/-! ## Further facts on the generators and the witness -/

theorem xorshiftStep_zero : xorshiftStep 0 = 0 := by decide

/-- From the seed 0 the state and the accumulator of `Xorshift` stay 0. -/
theorem XorshiftLoop_zero_seed (k : Nat) : ∀ fuel : Nat, XorshiftLoop fuel 0 0 ((k : Int) + 1) = none := by
  have hc : (BitLen 0 : Int) < (k : Int) + 1 := by
    rw [BitLen_zero]
    omega
  intro fuel
  induction fuel with
  | zero => simp [XorshiftLoop, hc]
  | succ f ih =>
    simp only [XorshiftLoop, hc, if_true, xorshiftStep_zero]
    simpa using ih

theorem shiftLeft_or_eq (r x k : Nat) (hx : x < 2 ^ k) : (r <<< k) ||| x = r * 2 ^ k + x := by
  rw [Nat.shiftLeft_eq, Nat.mul_comm, Nat.mul_add_lt_is_or hx, Nat.mul_comm]

/-- The witness drawn with an admissible draw: its bit length and its range. -/
theorem sampleWitness_bounds (fuel n : Nat) (dr : Draw) (hv : ValidDraw n dr)
    (hfuel : BitLen n ≤ fuel) :
    ∃ a : Nat, sampleWitness fuel n dr = Run.done a ∧ BitLen a = BitLen n - dr.shift ∧
      2 ≤ a ∧ a < 2 ^ BitLen n ∧ 2 ^ BitLen n ≤ 2 * n := by
  obtain ⟨a, ha, hlen⟩ := sampleWitness_spec fuel n dr hv hfuel
  obtain ⟨_, _, hsh⟩ := hv
  refine ⟨a, ha, hlen, ?_, ?_, ?_⟩
  · have h1 : 1 < BitLen a := by omega
    have h2 := (lt_BitLen_iff a 1).mp h1
    simpa using h2
  · exact lt_of_lt_of_le (lt_two_pow_BitLen a)
      (Nat.pow_le_pow_right (by norm_num) (by omega))
  · have hn0 : n ≠ 0 := by
      intro h0
      rw [h0, BitLen_zero] at hsh
      omega
    have h1 := two_pow_pred_BitLen_le n hn0
    have e : BitLen n = (BitLen n - 1) + 1 := by omega
    rw [e, pow_succ]
    omega

theorem eq_of_dvd_of_lt_two_mul (n a : Nat) (h0 : 0 < a) (h2 : a < 2 * n) (hd : n ∣ a) : a = n := by
  obtain ⟨c, rfl⟩ := hd
  have hc1 : c < 2 := by
    by_contra h
    have h3 : 2 ≤ c := by omega
    have : n * 2 ≤ n * c := Nat.mul_le_mul_left n h3
    omega
  have hc0 : c ≠ 0 := by
    rintro rfl
    simp at h0
  have : c = 1 := by omega
  rw [this, Nat.mul_one]

/-- On the candidate 0 the witness sampling panics: `Xorshift(0)` returns at once and
`rand.Intn` is called with -1. -/
theorem sampleWitness_zero (fuel : Nat) (dr : Draw) : sampleWitness fuel 0 dr = Run.crash := by
  have hx : XorshiftLoop fuel dr.seed 0 ((0 : Nat) : Int) = some 0 := by
    cases fuel <;> simp [XorshiftLoop, BitLen_zero]
  have hk : Intn (((0 : Nat) : Int) - 1) dr.shift = Run.crash := by simp [Intn]
  simp only [sampleWitness, Xorshift, BitLen_zero, hx, hk]

/-! ## Claims C11, C12, C18, C19, C20 -/

/-- C11 (fails on the code): the clock can supply the seed 0, and from the seed 0 the packing
loop of `Xorshift` never ends: for every `nBits ≥ 1` (written `k + 1`) and under every
budget the run is still looping. -/
theorem Xorshift_zero_seed_never_returns :
    (0 : Nat) < 2 ^ 32 ∧ ∀ (fuel k : Nat), Xorshift fuel 0 ((k : Int) + 1) = none := by
  refine ⟨by norm_num, ?_⟩
  intro fuel k
  simp [Xorshift, XorshiftLoop_zero_seed k fuel]

/-- C12 (fails on the code): `Fermat` does not guard the candidate 0. It reaches the
witness sampling with bit length 0, `rand.Intn` is called with the argument -1, and the
run panics, whatever the budget and the draws. -/
theorem Fermat_zero_panics :
    BitLen 0 = 0 ∧ Intn ((BitLen 0 : Int) - 1) 0 = Run.crash ∧
      ∀ (fuel : Nat) (rnd : Nat → Draw), Fermat fuel 0 rnd = Run.crash := by
  refine ⟨BitLen_zero, by decide, ?_⟩
  intro fuel rnd
  have hne1 : ¬ ((0 : Nat) = 1 ∨ (0 : Nat) = 4) := by decide
  have hne2 : ¬ ((0 : Nat) = 2 ∨ (0 : Nat) = 3) := by decide
  simp only [Fermat, hne1, hne2, if_false, fermatTrials, sampleWitness_zero]

/-- C18 (fails on the code): the value returned by `Xorshift` is not the low `nBits` bits
of the accumulator. With seed 1 and `nBits = 3` the accumulator is 270369, whose low three
bits are 1, and the value returned is 4. -/
theorem Xorshift_not_low_bits :
    ∃ acc : Nat, XorshiftLoop 3 1 0 3 = some acc ∧ Xorshift 3 1 3 = some 4 ∧
      acc % 2 ^ 3 = 1 ∧ Xorshift 3 1 3 ≠ some (acc % 2 ^ 3) :=
  ⟨270369, by decide, by decide, by decide, by decide⟩

/-- C18 (amended): the trim step of `Xorshift` keeps the `nBits` most significant bits of
the accumulator and discards the excess least significant bits: for every nonzero 32-bit
seed and `nBits ≥ 1` the value returned is the accumulator divided by
`2 ^ (BitLen acc - nBits)`, and it has exactly `nBits` bits. -/
theorem Xorshift_keeps_high_bits (seed : Nat) (nBits : Int) (fuel : Nat)
    (hseed0 : seed ≠ 0) (hseed : seed < 2 ^ 32) (hn : 1 ≤ nBits) (hfuel : nBits.toNat ≤ fuel) :
    ∃ acc : Nat, XorshiftLoop fuel seed 0 nBits = some acc ∧ nBits ≤ (BitLen acc : Int) ∧
      Xorshift fuel seed nBits = some (acc / 2 ^ (BitLen acc - nBits.toNat)) ∧
      (BitLen (acc / 2 ^ (BitLen acc - nBits.toNat)) : Int) = nBits := by
  obtain ⟨acc, hacc, hlo, hhi⟩ := XorshiftLoop_spec nBits fuel seed 0 hseed0 hseed
    (by rw [BitLen_zero]; omega) (by rw [BitLen_zero]; simpa using hfuel)
  have hu : toUint ((BitLen acc : Int) - nBits) = BitLen acc - nBits.toNat := by
    rw [toUint_of_bounds _ (by omega) (by omega)]
    omega
  have ht := BitLen_trim acc nBits (by omega) hlo hhi
  rw [hu, Nat.shiftRight_eq_div_pow] at ht
  refine ⟨acc, hacc, hlo, ?_, ht⟩
  simp only [Xorshift, hacc, hu, Int.natAbs_ofNat, Nat.shiftRight_eq_div_pow]

theorem Xorshift_keeps_high_bits_witness :
    ∃ acc : Nat, XorshiftLoop 3 1 0 3 = some acc ∧ (3 : Int) ≤ (BitLen acc : Int) ∧
      Xorshift 3 1 3 = some (acc / 2 ^ (BitLen acc - (3 : Int).toNat)) ∧
      (BitLen (acc / 2 ^ (BitLen acc - (3 : Int).toNat)) : Int) = 3 :=
  Xorshift_keeps_high_bits 1 3 3 (by decide) (by decide) (by decide) (by decide)

/-- C19: a round of `LCG` packs with variable width. The new state is below `2 ^ 32`, the
accumulator becomes `acc * 2 ^ BitLen xN + xN` for the new state `xN`, and its bit length
grows by exactly `BitLen xN`, which lies between 0 and 32 and is not always 32 (after the
state 0 it is 1); from the accumulator 0 the new bit length is `BitLen xN`. -/
theorem LCG_round_variable_width (fuel xN acc : Nat) (nBits : Int)
    (hloop : (BitLen acc : Int) < nBits) :
    LCGLoop (fuel + 1) xN acc nBits =
        LCGLoop fuel (lcgStep xN) (acc * 2 ^ BitLen (lcgStep xN) + lcgStep xN) nBits ∧
      lcgStep xN < 2 ^ 32 ∧ BitLen (lcgStep xN) ≤ 32 ∧
      BitLen (acc * 2 ^ BitLen (lcgStep xN) + lcgStep xN) = BitLen acc + BitLen (lcgStep xN) ∧
      (acc = 0 → BitLen (acc * 2 ^ BitLen (lcgStep xN) + lcgStep xN) = BitLen (lcgStep xN)) ∧
      BitLen (lcgStep 0) = 1 := by
  have hor := shiftLeft_or_eq acc (lcgStep xN) (BitLen (lcgStep xN)) (lt_two_pow_BitLen _)
  have hlen := BitLen_packVar acc (lcgStep xN)
  rw [hor] at hlen
  refine ⟨?_, lcgStep_lt xN, (BitLen_le_iff _ 32).mpr (lcgStep_lt xN), hlen, ?_, by decide⟩
  · simp only [LCGLoop, hloop, if_true, hor]
  · intro h0
    rw [hlen, h0, BitLen_zero, Nat.zero_add]

theorem LCG_round_variable_width_witness :
    LCGLoop (0 + 1) 0 1 8 =
        LCGLoop 0 (lcgStep 0) (1 * 2 ^ BitLen (lcgStep 0) + lcgStep 0) 8 ∧
      lcgStep 0 < 2 ^ 32 ∧ BitLen (lcgStep 0) ≤ 32 ∧
      BitLen (1 * 2 ^ BitLen (lcgStep 0) + lcgStep 0) = BitLen 1 + BitLen (lcgStep 0) ∧
      (1 = 0 → BitLen (1 * 2 ^ BitLen (lcgStep 0) + lcgStep 0) = BitLen (lcgStep 0)) ∧
      BitLen (lcgStep 0) = 1 :=
  LCG_round_variable_width 0 0 1 8 (by decide)

/-- C20: with an admissible draw for a candidate `n` (a nonzero 32-bit seed and a shift
`s` with `s + 2 ≤ b`, so that the bit length `b` of `n` is at least 2), the witness
`a = Xorshift(b) >> s` is drawn, has exactly `b - s` bits, satisfies `2 ≤ a < 2 ^ b ≤ 2 * n`,
and is a multiple of `n` only if it equals `n`. -/
theorem witness_bitLen_and_range (fuel n : Nat) (dr : Draw)
    (hv : ValidDraw n dr) (hfuel : BitLen n ≤ fuel) :
    ∃ a : Nat, sampleWitness fuel n dr = Run.done a ∧ BitLen a = BitLen n - dr.shift ∧
      2 ≤ a ∧ a < 2 ^ BitLen n ∧ 2 ^ BitLen n ≤ 2 * n ∧ (n ∣ a → a = n) := by
  obtain ⟨a, ha, hlen, h2, hlt, hle⟩ := sampleWitness_bounds fuel n dr hv hfuel
  exact ⟨a, ha, hlen, h2, hlt, hle,
    eq_of_dvd_of_lt_two_mul n a (by omega) (lt_of_lt_of_le hlt hle)⟩

theorem witness_bitLen_and_range_witness :
    ∃ a : Nat, sampleWitness 3 5 ⟨1, 1⟩ = Run.done a ∧
      BitLen a = BitLen 5 - (⟨1, 1⟩ : Draw).shift ∧
      2 ≤ a ∧ a < 2 ^ BitLen 5 ∧ 2 ^ BitLen 5 ≤ 2 * 5 ∧ (5 ∣ a → a = 5) :=
  witness_bitLen_and_range 3 5 ⟨1, 1⟩ ⟨by decide, by decide, by decide⟩ (by decide)


/-! ## Decomposition and the trial of Miller-Rabin -/

/-- The decomposition loop started from a nonzero `d0` ends within `fuel` rounds when
`d0 < 2 ^ fuel`: it has halved `d0` some `k` times, the result is odd, and the counter has
advanced by `k` on `uint64`. -/
theorem decompose_spec : ∀ (fuel r0 d0 : Nat), d0 ≠ 0 → d0 < 2 ^ fuel → r0 < 2 ^ 64 →
    ∃ k d, decompose fuel r0 d0 = some ((r0 + k) % 2 ^ 64, d) ∧ d % 2 = 1 ∧ d0 = d * 2 ^ k := by
  intro fuel
  induction fuel with
  | zero =>
    intro r0 d0 h0 hlt _
    simp at hlt
    exact absurd hlt h0
  | succ f ih =>
    intro r0 d0 h0 hlt hr
    by_cases hc : d0 % 2 = 0
    · have hhalf : d0 >>> 1 = d0 / 2 := by
        rw [Nat.shiftRight_eq_div_pow, pow_one]
      have h1 : d0 / 2 ≠ 0 := by omega
      have h2 : d0 / 2 < 2 ^ f := by
        rw [pow_succ] at hlt
        omega
      obtain ⟨k, d, hk, hd, he⟩ := ih ((r0 + 1) % 2 ^ 64) (d0 / 2) h1 h2
        (Nat.mod_lt _ (by norm_num))
      refine ⟨k + 1, d, ?_, hd, ?_⟩
      · simp only [decompose, hc, if_true, hhalf, hk]
        congr 2
        omega
      · rw [pow_succ, ← Nat.mul_assoc, ← he]
        omega
    · refine ⟨0, d0, ?_, by omega, by simp⟩
      simp only [decompose, hc, if_false, Nat.add_zero, Nat.mod_eq_of_lt hr]

/-- For an odd candidate `n ≥ 3` whose bit length fits a machine word, the decomposition
loop of `MillerRabin` ends within `BitLen n` rounds with `n - 1 = d * 2 ^ r`, `d` odd and
`1 ≤ r < BitLen n`. -/
theorem decompose_candidate (fuel n : Nat) (hodd : n % 2 = 1) (h3 : 3 ≤ n)
    (hsize : BitLen n < 2 ^ 63) (hfuel : BitLen n ≤ fuel) :
    ∃ r d, decompose fuel 0 (n - 1) = some (r, d) ∧ d % 2 = 1 ∧ 1 ≤ r ∧ r < BitLen n ∧
      n - 1 = d * 2 ^ r := by
  have hlt : n - 1 < 2 ^ fuel := by
    have h1 := lt_two_pow_BitLen n
    have h2 : 2 ^ BitLen n ≤ 2 ^ fuel := Nat.pow_le_pow_right (by norm_num) hfuel
    omega
  obtain ⟨k, d, hk, hd, he⟩ := decompose_spec fuel 0 (n - 1) (by omega) hlt (by norm_num)
  have hk1 : 1 ≤ k := by
    by_contra h
    have hk0 : k = 0 := by omega
    rw [hk0, pow_zero, Nat.mul_one] at he
    omega
  have hkb : k < BitLen n := by
    rw [lt_BitLen_iff]
    have hd1 : 1 ≤ d := by omega
    calc 2 ^ k = 1 * 2 ^ k := by rw [Nat.one_mul]
      _ ≤ d * 2 ^ k := Nat.mul_le_mul_right _ hd1
      _ = n - 1 := he.symm
      _ ≤ n := Nat.sub_le n 1
  have hmod : (0 + k) % 2 ^ 64 = k := by
    rw [Nat.zero_add]
    apply Nat.mod_eq_of_lt
    have : (2 : Nat) ^ 63 < 2 ^ 64 := by norm_num
    omega
  rw [hmod] at hk
  exact ⟨k, d, hk, hd, hk1, hkb, he⟩

/-- The inner loop of `MillerRabin` sets `possiblePrime` exactly when one of its `k`
squarings reaches `nMinus1`. -/
theorem squareLoop_iff (n nMinus1 : Nat) (hn : n ≠ 0) :
    ∀ (k x : Nat), squareLoop k x n nMinus1 = true ↔
      ∃ j, 1 ≤ j ∧ j ≤ k ∧ x ^ 2 ^ j % n = nMinus1 := by
  intro k
  induction k with
  | zero =>
    intro x
    simp only [squareLoop]
    constructor
    · intro h
      exact Bool.noConfusion h
    · rintro ⟨j, h1, h2, _⟩
      omega
  | succ k ih =>
    intro x
    have hstep : ∀ j, (x ^ 2 % n) ^ 2 ^ j % n = x ^ 2 ^ (j + 1) % n := by
      intro j
      rw [← Nat.pow_mod, ← pow_mul, pow_succ']
    simp only [squareLoop, Exp, hn, if_false]
    by_cases hx : x ^ 2 % n = nMinus1
    · simp only [hx, if_true, true_iff]
      exact ⟨1, le_rfl, by omega, by simpa using hx⟩
    · simp only [hx, if_false]
      rw [ih]
      constructor
      · rintro ⟨j, h1, h2, h3⟩
        exact ⟨j + 1, by omega, by omega, by rw [← hstep]; exact h3⟩
      · rintro ⟨j, h1, h2, h3⟩
        have hj : j ≠ 1 := by
          rintro rfl
          exact hx (by simpa using h3)
        refine ⟨j - 1, by omega, by omega, ?_⟩
        rw [hstep]
        have e : j - 1 + 1 = j := by omega
        rw [e]
        exact h3

/-- One trial of `MillerRabin` passes exactly when the witness is a strong probable prime
base for the decomposition `(r, d)`. -/
theorem trialPasses_iff (n d r a : Nat) (hn : 2 ≤ n) (hr1 : 1 ≤ r) (hr : r < 2 ^ 64) :
    trialPasses n d r (n - 1) a = true ↔
      (a ^ d % n = 1 ∨ ∃ j, j < r ∧ a ^ (d * 2 ^ j) % n = n - 1) := by
  have hn0 : n ≠ 0 := by omega
  have hbound : (r + 2 ^ 64 - 1) % 2 ^ 64 = r - 1 := by omega
  have hstep : ∀ j, (a ^ d % n) ^ 2 ^ j % n = a ^ (d * 2 ^ j) % n := by
    intro j
    rw [← Nat.pow_mod, ← pow_mul]
  simp only [trialPasses, Exp, hn0, if_false, hbound]
  by_cases h1 : a ^ d % n = 1 ∨ a ^ d % n = n - 1
  · simp only [h1, if_true, true_iff]
    rcases h1 with h | h
    · exact Or.inl h
    · exact Or.inr ⟨0, by omega, by simpa using h⟩
  · simp only [h1, if_false]
    rw [squareLoop_iff n (n - 1) hn0]
    push_neg at h1
    constructor
    · rintro ⟨j, hj1, hj2, hj3⟩
      exact Or.inr ⟨j, by omega, by rw [← hstep]; exact hj3⟩
    · rintro (h | ⟨j, hj, hj3⟩)
      · exact absurd h h1.1
      · have hj0 : j ≠ 0 := by
          rintro rfl
          exact h1.2 (by simpa using hj3)
        exact ⟨j, by omega, by omega, by rw [hstep]; exact hj3⟩


/-! ## Primes pass every trial whose witness they do not divide -/

/-- In a field, an element whose `2 ^ r`-th power is 1 either is 1 or has -1 among its
first `r` repeated squares. -/
theorem sqrt_chain {F : Type} [Field F] (y : F) :
    ∀ r : Nat, y ^ 2 ^ r = 1 → y = 1 ∨ ∃ j, j < r ∧ y ^ 2 ^ j = -1 := by
  intro r
  induction r with
  | zero =>
    intro h
    exact Or.inl (by simpa using h)
  | succ r ih =>
    intro h
    have h2 : (y ^ 2 ^ r) ^ 2 = 1 := by
      rw [← pow_mul, ← pow_succ]
      exact h
    rcases sq_eq_one_iff.mp h2 with h1 | h1
    · rcases ih h1 with h3 | ⟨j, hj, h3⟩
      · exact Or.inl h3
      · exact Or.inr ⟨j, by omega, h3⟩
    · exact Or.inr ⟨r, by omega, h1⟩

theorem pow_mod_eq_pred_iff (p a k : Nat) (hp : 2 ≤ p) :
    a ^ k % p = p - 1 ↔ (a : ZMod p) ^ k = -1 := by
  have hc : ((p - 1 : Nat) : ZMod p) = -1 := by
    rw [Nat.cast_sub (by omega)]
    simp
  rw [← hc, ← Nat.cast_pow, ZMod.natCast_eq_natCast_iff']
  rw [Nat.mod_eq_of_lt (by omega : p - 1 < p)]

theorem pow_mod_eq_one_iff (p a k : Nat) (hp : 2 ≤ p) :
    a ^ k % p = 1 ↔ (a : ZMod p) ^ k = 1 := by
  have hc : ((1 : Nat) : ZMod p) = 1 := by simp
  rw [← hc, ← Nat.cast_pow, ZMod.natCast_eq_natCast_iff']
  rw [Nat.mod_eq_of_lt (by omega : 1 < p)]

/-- Fermat: a prime `p` that does not divide `a` has `a ^ (p - 1) mod p = 1`. -/
theorem fermat_little (p a : Nat) (hp : Nat.Prime p) (ha : ¬ p ∣ a) : a ^ (p - 1) % p = 1 := by
  haveI : Fact p.Prime := ⟨hp⟩
  rw [pow_mod_eq_one_iff p a (p - 1) hp.two_le]
  apply ZMod.pow_card_sub_one_eq_one
  rwa [Ne, ZMod.natCast_zmod_eq_zero_iff_dvd]

/-- Every number that a prime `p` does not divide is a strong probable prime base for `p`. -/
theorem prime_strong_base (p a d r : Nat) (hp : Nat.Prime p) (ha : ¬ p ∣ a)
    (hdr : p - 1 = d * 2 ^ r) :
    a ^ d % p = 1 ∨ ∃ j, j < r ∧ a ^ (d * 2 ^ j) % p = p - 1 := by
  haveI : Fact p.Prime := ⟨hp⟩
  have h1 : ((a : ZMod p) ^ d) ^ 2 ^ r = 1 := by
    rw [← pow_mul, ← hdr, ← pow_mod_eq_one_iff p a (p - 1) hp.two_le]
    exact fermat_little p a hp ha
  rcases sqrt_chain ((a : ZMod p) ^ d) r h1 with h | ⟨j, hj, h⟩
  · exact Or.inl ((pow_mod_eq_one_iff p a d hp.two_le).mpr h)
  · refine Or.inr ⟨j, hj, (pow_mod_eq_pred_iff p a (d * 2 ^ j) hp.two_le).mpr ?_⟩
    rw [pow_mul]
    exact h

/-- The trial loop of `MillerRabin` returns true when each of its trials draws a witness
that passes. -/
theorem mrTrials_all_pass (fuel n d r nMinus1 : Nat) (rnd : Nat → Draw) (ws : Nat → Nat) :
    ∀ (k i : Nat),
      (∀ j, i ≤ j → j < i + k → sampleWitness fuel n (rnd j) = Run.done (ws j)) →
      (∀ j, i ≤ j → j < i + k → trialPasses n d r nMinus1 (ws j) = true) →
      mrTrials fuel n d r nMinus1 rnd k i = Run.done true := by
  intro k
  induction k with
  | zero =>
    intro i _ _
    simp [mrTrials]
  | succ k ih =>
    intro i hs hp
    have hi := hs i le_rfl (by omega)
    have hpi := hp i le_rfl (by omega)
    simp only [mrTrials, hi, hpi, if_true]
    exact ih (i + 1) (fun j h1 h2 => hs j (by omega) (by omega))
      (fun j h1 h2 => hp j (by omega) (by omega))

/-- The trial loop of `MillerRabin` returns false at the first trial whose witness does not
pass; the draws of the later trials are not looked at. -/
theorem mrTrials_first_fail (fuel n d r nMinus1 : Nat) (rnd : Nat → Draw) (ws : Nat → Nat) :
    ∀ (k i m : Nat), i ≤ m → m < i + k →
      (∀ j, i ≤ j → j ≤ m → sampleWitness fuel n (rnd j) = Run.done (ws j)) →
      (∀ j, i ≤ j → j < m → trialPasses n d r nMinus1 (ws j) = true) →
      trialPasses n d r nMinus1 (ws m) = false →
      mrTrials fuel n d r nMinus1 rnd k i = Run.done false := by
  intro k
  induction k with
  | zero =>
    intro i m h1 h2
    omega
  | succ k ih =>
    intro i m h1 h2 hs hp hf
    have hi := hs i le_rfl h1
    simp only [mrTrials, hi]
    by_cases hm : m = i
    · subst hm
      simp [hf]
    · have hpi := hp i le_rfl (by omega)
      simp only [hpi, if_true]
      exact ih (i + 1) m (by omega) (by omega) (fun j h3 h4 => hs j (by omega) h4)
        (fun j h3 h4 => hp j (by omega) h4) hf

/-- The trial loop of `Fermat` returns true when each of its trials draws a witness whose
power is 1. -/
theorem fermatTrials_all_pass (fuel n : Nat) (rnd : Nat → Draw) (ws : Nat → Nat) :
    ∀ (k i : Nat),
      (∀ j, i ≤ j → j < i + k → sampleWitness fuel n (rnd j) = Run.done (ws j)) →
      (∀ j, i ≤ j → j < i + k → Exp (ws j) (n - 1) n = 1) →
      fermatTrials fuel n rnd k i = Run.done true := by
  intro k
  induction k with
  | zero =>
    intro i _ _
    simp [fermatTrials]
  | succ k ih =>
    intro i hs hp
    have hi := hs i le_rfl (by omega)
    have hpi := hp i le_rfl (by omega)
    simp only [fermatTrials, hi, hpi, ne_eq, not_true_eq_false, if_false]
    exact ih (i + 1) (fun j h1 h2 => hs j (by omega) (by omega))
      (fun j h1 h2 => hp j (by omega) (by omega))

/-- The decomposition `n - 1 = d * 2 ^ r` with `d` odd is unique. -/
theorem odd_mul_two_pow_unique (d r d1 r1 : Nat) (hd : d % 2 = 1) (hd1 : d1 % 2 = 1)
    (h : d * 2 ^ r = d1 * 2 ^ r1) : d = d1 ∧ r = r1 := by
  have key : ∀ (a b s t : Nat), a % 2 = 1 → b % 2 = 1 → s ≤ t → a * 2 ^ s = b * 2 ^ t →
      a = b ∧ s = t := by
    intro a b s t ha hb hst he
    obtain ⟨u, rfl⟩ : ∃ u, t = s + u := ⟨t - s, by omega⟩
    rw [pow_add, Nat.mul_comm (2 ^ s) (2 ^ u), ← Nat.mul_assoc] at he
    have h2 : a = b * 2 ^ u := Nat.eq_of_mul_eq_mul_right (Nat.two_pow_pos s) he
    cases u with
    | zero =>
      simp at h2
      exact ⟨h2, rfl⟩
    | succ u =>
      rw [pow_succ, ← Nat.mul_assoc] at h2
      omega
  rcases Nat.le_total r r1 with hle | hle
  · exact key d d1 r r1 hd hd1 hle h
  · obtain ⟨h1, h2⟩ := key d1 d r1 r hd1 hd hle h.symm
    exact ⟨h1.symm, h2.symm⟩

/-- On an odd candidate `n ≥ 5` whose bit length fits a machine word, `MillerRabin` runs its
trial loop with the decomposition `n - 1 = d * 2 ^ r`. -/
theorem MillerRabin_eq_trials (fuel n d r : Nat) (rnd : Nat → Draw) (hodd : n % 2 = 1)
    (h5 : 5 ≤ n) (hsize : BitLen n < 2 ^ 63) (hfuel : BitLen n ≤ fuel) (hd : d % 2 = 1)
    (hdr : n - 1 = d * 2 ^ r) :
    MillerRabin fuel n rnd = mrTrials fuel n d r (n - 1) rnd 20 0 ∧ 1 ≤ r ∧ r < 2 ^ 64 := by
  obtain ⟨r1, d1, hdec, hd1, hr1, hrb, he⟩ := decompose_candidate fuel n hodd (by omega) hsize hfuel
  obtain ⟨e1, e2⟩ := odd_mul_two_pow_unique d r d1 r1 hd hd1 (by rw [← hdr, ← he])
  subst e1 e2
  have hne : ¬ (n = 2 ∨ n = 3) := by omega
  have hod : ¬ (n % 2 = 0) := by omega
  have h64 : (2 : Nat) ^ 63 < 2 ^ 64 := by norm_num
  refine ⟨?_, hr1, by omega⟩
  simp only [MillerRabin, hne, hod, if_false, hdec]


/-- For the decomposition computed by `MillerRabin`, a trial passes exactly when its witness
is a strong probable prime base. -/
theorem trialPasses_iff_strong_base (n d r a : Nat) (hn : 2 ≤ n) (hd : d % 2 = 1)
    (hdr : n - 1 = d * 2 ^ r) (hr1 : 1 ≤ r) (hr : r < 2 ^ 64) :
    trialPasses n d r (n - 1) a = true ↔ StrongProbablePrimeBase n a := by
  rw [trialPasses_iff n d r a hn hr1 hr]
  constructor
  · intro h
    exact ⟨d, r, hd, hdr, h⟩
  · rintro ⟨d1, r1, hd1, hdr1, h⟩
    obtain ⟨e1, e2⟩ := odd_mul_two_pow_unique d r d1 r1 hd hd1 (by rw [← hdr, ← hdr1])
    subst e1 e2
    exact h

/-- A prime `n ≥ 5` passes `MillerRabin` when it divides none of the 20 witnesses drawn. -/
theorem MillerRabin_prime_of_not_dvd (fuel n : Nat) (rnd : Nat → Draw) (ws : Nat → Nat)
    (hp : Nat.Prime n) (h5 : 5 ≤ n) (hsize : BitLen n < 2 ^ 63) (hfuel : BitLen n ≤ fuel)
    (hws : ∀ i, i < 20 → sampleWitness fuel n (rnd i) = Run.done (ws i))
    (hnd : ∀ i, i < 20 → ¬ n ∣ ws i) :
    MillerRabin fuel n rnd = Run.done true ∧
      ∃ r d, decompose fuel 0 (n - 1) = some (r, d) ∧
        ∀ i, i < 20 → trialPasses n d r (n - 1) (ws i) = true := by
  have hodd : n % 2 = 1 := by
    rcases hp.eq_two_or_odd with h | h
    · omega
    · exact h
  obtain ⟨r, d, hdec, hd, hr1, hrb, hdr⟩ := decompose_candidate fuel n hodd (by omega) hsize hfuel
  obtain ⟨hmr, _, hr64⟩ := MillerRabin_eq_trials fuel n d r rnd hodd h5 hsize hfuel hd hdr
  have hpass : ∀ i, i < 20 → trialPasses n d r (n - 1) (ws i) = true := by
    intro i hi
    rw [trialPasses_iff n d r (ws i) (by omega) hr1 hr64]
    exact prime_strong_base n (ws i) d r hp (hnd i hi) hdr
  refine ⟨?_, r, d, hdec, hpass⟩
  rw [hmr]
  exact mrTrials_all_pass fuel n d r (n - 1) rnd ws 20 0
    (fun j _ h => hws j (by omega)) (fun j _ h => hpass j (by omega))

/-! ## Claims C14, C15, C16, C17 -/

/-- C14: for every prime `n ≥ 5` (whose bit length fits a machine word), if each of the 20
trials draws a witness `a` with `1 < a < n`, then `MillerRabin` returns true: the
decomposition loop ends and every trial passes, its power `a ^ d mod n` being 1 or `n - 1`
or reaching `n - 1` within the `r - 1` squarings of the inner loop. -/
theorem MillerRabin_accepts_prime_in_range (fuel n : Nat) (rnd : Nat → Draw) (ws : Nat → Nat)
    (hp : Nat.Prime n) (h5 : 5 ≤ n) (hsize : BitLen n < 2 ^ 63) (hfuel : BitLen n ≤ fuel)
    (hws : ∀ i, i < 20 → sampleWitness fuel n (rnd i) = Run.done (ws i))
    (hrange : ∀ i, i < 20 → 1 < ws i ∧ ws i < n) :
    MillerRabin fuel n rnd = Run.done true ∧
      ∃ r d, decompose fuel 0 (n - 1) = some (r, d) ∧
        ∀ i, i < 20 → trialPasses n d r (n - 1) (ws i) = true :=
  MillerRabin_prime_of_not_dvd fuel n rnd ws hp h5 hsize hfuel hws
    (fun i hi => Nat.not_dvd_of_pos_of_lt (by have := (hrange i hi).1; omega) (hrange i hi).2)

theorem MillerRabin_accepts_prime_in_range_witness :
    MillerRabin 3 5 (fun _ => ⟨1, 0⟩) = Run.done true ∧
      ∃ r d, decompose 3 0 (5 - 1) = some (r, d) ∧
        ∀ i, i < 20 → trialPasses 5 d r (5 - 1) ((fun _ => 4) i) = true :=
  MillerRabin_accepts_prime_in_range 3 5 (fun _ => ⟨1, 0⟩) (fun _ => 4) (by norm_num)
    (by decide) (by decide) (by decide)
    (fun _ _ => (by decide : sampleWitness 3 5 ⟨1, 0⟩ = Run.done 4))
    (fun _ _ => (⟨by decide, by decide⟩ : 1 < 4 ∧ 4 < 5))

/-- C15: for every odd `n ≥ 5` (whose bit length fits a machine word), when the 20 trials
draw the witnesses `ws`, `MillerRabin` returns true if and only if every witness is a strong
probable prime base for `n`; and it returns false at the first trial `m` whose witness is
not one, whatever the draws of the later trials. -/
theorem MillerRabin_iff_strong_bases (fuel n : Nat) (rnd : Nat → Draw) (ws : Nat → Nat)
    (hodd : n % 2 = 1) (h5 : 5 ≤ n) (hsize : BitLen n < 2 ^ 63) (hfuel : BitLen n ≤ fuel) :
    ((∀ i, i < 20 → sampleWitness fuel n (rnd i) = Run.done (ws i)) →
      (MillerRabin fuel n rnd = Run.done true ↔
        ∀ i, i < 20 → StrongProbablePrimeBase n (ws i))) ∧
    (∀ m, m < 20 →
      (∀ j, j ≤ m → sampleWitness fuel n (rnd j) = Run.done (ws j)) →
      (∀ j, j < m → StrongProbablePrimeBase n (ws j)) →
      ¬ StrongProbablePrimeBase n (ws m) →
      MillerRabin fuel n rnd = Run.done false) := by
  obtain ⟨r, d, _, hd, _, _, hdr⟩ := decompose_candidate fuel n hodd (by omega) hsize hfuel
  obtain ⟨hmr, hr1, hr64⟩ := MillerRabin_eq_trials fuel n d r rnd hodd h5 hsize hfuel hd hdr
  have hiff : ∀ a, trialPasses n d r (n - 1) a = true ↔ StrongProbablePrimeBase n a :=
    fun a => trialPasses_iff_strong_base n d r a (by omega) hd hdr hr1 hr64
  have hfirst : ∀ m, m < 20 →
      (∀ j, j ≤ m → sampleWitness fuel n (rnd j) = Run.done (ws j)) →
      (∀ j, j < m → StrongProbablePrimeBase n (ws j)) →
      ¬ StrongProbablePrimeBase n (ws m) →
      MillerRabin fuel n rnd = Run.done false := by
    intro m hm hs hpass hfail
    rw [hmr]
    refine mrTrials_first_fail fuel n d r (n - 1) rnd ws 20 0 m (Nat.zero_le m) (by omega)
      (fun j _ h => hs j h) (fun j _ h => (hiff (ws j)).mpr (hpass j h)) ?_
    rw [← Bool.not_eq_true, hiff]
    exact hfail
  refine ⟨?_, hfirst⟩
  intro hws
  constructor
  · intro htrue
    by_contra hnot
    push_neg at hnot
    have hex : ∃ m, m < 20 ∧ ¬ StrongProbablePrimeBase n (ws m) := by
      obtain ⟨i, hi, hni⟩ := hnot
      exact ⟨i, hi, hni⟩
    classical
    have hmin := Nat.find_spec hex
    have hlow : ∀ j, j < Nat.find hex → StrongProbablePrimeBase n (ws j) := by
      intro j hj
      by_contra hc
      exact Nat.find_min hex hj ⟨by omega, hc⟩
    have hfalse := hfirst (Nat.find hex) hmin.1 (fun j hj => hws j (by omega)) hlow hmin.2
    rw [htrue] at hfalse
    exact Bool.noConfusion (Run.done.inj hfalse)
  · intro hall
    rw [hmr]
    exact mrTrials_all_pass fuel n d r (n - 1) rnd ws 20 0
      (fun j _ h => hws j (by omega)) (fun j _ h => (hiff (ws j)).mpr (hall j (by omega)))

theorem MillerRabin_iff_strong_bases_witness :
    MillerRabin 4 9 (fun _ => ⟨1, 0⟩) = Run.done true ↔
      ∀ i, i < 20 → StrongProbablePrimeBase 9 ((fun _ => 8) i) :=
  (MillerRabin_iff_strong_bases 4 9 (fun _ => ⟨1, 0⟩) (fun _ => 8) (by decide) (by decide)
    (by decide) (by decide)).1
    (fun _ _ => (by decide : sampleWitness 4 9 ⟨1, 0⟩ = Run.done 8))

/-- C16: for every odd `n ≥ 3` (whose bit length fits a machine word), the decomposition loop
of `MillerRabin` ends within `BitLen n` rounds with `d` odd and `r ≥ 1` such that
`n - 1 = d * 2 ^ r`, and the `uint64` bound `r - 1` of the inner loop does not wrap. -/
theorem decompose_odd_candidate (fuel n : Nat) (hodd : n % 2 = 1) (h3 : 3 ≤ n)
    (hsize : BitLen n < 2 ^ 63) (hfuel : BitLen n ≤ fuel) :
    ∃ r d, decompose fuel 0 (n - 1) = some (r, d) ∧ d % 2 = 1 ∧ 1 ≤ r ∧
      n - 1 = d * 2 ^ r ∧ (r + 2 ^ 64 - 1) % 2 ^ 64 = r - 1 := by
  obtain ⟨r, d, hdec, hd, hr1, hrb, hdr⟩ := decompose_candidate fuel n hodd h3 hsize hfuel
  have h64 : (2 : Nat) ^ 63 < 2 ^ 64 := by norm_num
  exact ⟨r, d, hdec, hd, hr1, hdr, by omega⟩

theorem decompose_odd_candidate_witness :
    ∃ r d, decompose 4 0 (13 - 1) = some (r, d) ∧ d % 2 = 1 ∧ 1 ≤ r ∧
      13 - 1 = d * 2 ^ r ∧ (r + 2 ^ 64 - 1) % 2 ^ 64 = r - 1 :=
  decompose_odd_candidate 4 13 (by decide) (by decide) (by decide) (by decide)

/-- C17: for every prime `n ≥ 5`, if each of the 20 trials draws a witness `a` with
`1 < a < n`, then `Fermat` returns true, because `a ^ (n - 1) mod n = 1` in every trial. -/
theorem Fermat_accepts_prime_in_range (fuel n : Nat) (rnd : Nat → Draw) (ws : Nat → Nat)
    (hp : Nat.Prime n) (h5 : 5 ≤ n)
    (hws : ∀ i, i < 20 → sampleWitness fuel n (rnd i) = Run.done (ws i))
    (hrange : ∀ i, i < 20 → 1 < ws i ∧ ws i < n) :
    Fermat fuel n rnd = Run.done true ∧ ∀ i, i < 20 → Exp (ws i) (n - 1) n = 1 := by
  have hpow : ∀ i, i < 20 → Exp (ws i) (n - 1) n = 1 := by
    intro i hi
    obtain ⟨h1, h2⟩ := hrange i hi
    have hn0 : n ≠ 0 := by omega
    simp only [Exp, hn0, if_false]
    exact fermat_little n (ws i) hp (Nat.not_dvd_of_pos_of_lt (by omega) h2)
  have hne1 : ¬ (n = 1 ∨ n = 4) := by omega
  have hne2 : ¬ (n = 2 ∨ n = 3) := by omega
  refine ⟨?_, hpow⟩
  simp only [Fermat, hne1, hne2, if_false]
  exact fermatTrials_all_pass fuel n rnd ws 20 0
    (fun j _ h => hws j (by omega)) (fun j _ h => hpow j (by omega))

theorem Fermat_accepts_prime_in_range_witness :
    Fermat 3 5 (fun _ => ⟨1, 0⟩) = Run.done true ∧
      ∀ i, i < 20 → Exp ((fun _ => 4) i) (5 - 1) 5 = 1 :=
  Fermat_accepts_prime_in_range 3 5 (fun _ => ⟨1, 0⟩) (fun _ => 4) (by norm_num) (by decide)
    (fun _ _ => (by decide : sampleWitness 3 5 ⟨1, 0⟩ = Run.done 4))
    (fun _ _ => (⟨by decide, by decide⟩ : 1 < 4 ∧ 4 < 5))

/-! ## The Mersenne prime `2 ^ 61 - 1` -/

theorem prime_mersenne_61 : Nat.Prime (2 ^ 61 - 1) :=
  lucas_lehmer_sufficiency 61 (by norm_num) (by norm_num)

theorem BitLen_mersenne_61 : BitLen (2 ^ 61 - 1) = 61 :=
  BitLen_eq_of_bounds (2 ^ 61 - 1) 60 (by norm_num) (by norm_num)

/-- The accumulator returned by the packing loop of `Xorshift` starts with the bits of the
accumulator the loop was entered with. -/
theorem XorshiftLoop_prefix (nBits : Int) :
    ∀ (fuel x r acc : Nat), x < 2 ^ 32 → XorshiftLoop fuel x r nBits = some acc →
      ∃ k, acc >>> k = r ∧ (r ≠ 0 → BitLen acc = BitLen r + k) := by
  intro fuel
  induction fuel with
  | zero =>
    intro x r acc _ h
    by_cases hc : (BitLen r : Int) < nBits
    · simp [XorshiftLoop, hc] at h
    · simp only [XorshiftLoop, hc, if_false, Option.some.injEq] at h
      subst h
      exact ⟨0, by simp, fun _ => by simp⟩
  | succ f ih =>
    intro x r acc hx h
    by_cases hc : (BitLen r : Int) < nBits
    · simp only [XorshiftLoop, hc, if_true] at h
      have hx3 := xorshiftStep_lt x hx
      obtain ⟨k, hk, hlen⟩ := ih _ _ acc hx3 h
      have hor := shiftLeft_or_eq r (xorshiftStep x) 32 hx3
      refine ⟨k + 32, ?_, ?_⟩
      · rw [Nat.shiftRight_add, hk, hor, Nat.shiftRight_eq_div_pow]
        have hp : 0 < 2 ^ 32 := by norm_num
        rw [Nat.add_comm, Nat.add_mul_div_right _ _ hp, Nat.div_eq_of_lt hx3, Nat.zero_add]
      · intro hr
        have h1 := BitLen_shiftLeft_or r (xorshiftStep x) 32 hr hx3
        have hne : (r <<< 32) ||| xorshiftStep x ≠ 0 := by
          intro h0
          rw [h0, BitLen_zero] at h1
          omega
        rw [hlen hne, h1]
        omega
    · simp only [XorshiftLoop, hc, if_false, Option.some.injEq] at h
      subst h
      exact ⟨0, by simp, fun _ => by simp⟩

set_option maxRecDepth 100000 in
/-- No first word made of ones only leads `Xorshift(61)` to the value `2 ^ 61 - 1`. -/
theorem Xorshift_61_candidates :
    ∀ b, b < 33 →
      (XorshiftLoop 60 ((2 ^ 61 - 1) >>> (61 - b)) ((2 ^ 61 - 1) >>> (61 - b)) 61).map
        (fun acc => acc >>> (BitLen acc - 61)) ≠ some (2 ^ 61 - 1) := by
  decide


/-- From a nonzero 32-bit seed `Xorshift(61)` never returns `2 ^ 61 - 1`: the first word
would have to consist of ones only, and none of those 32 words is followed by enough ones. -/
theorem Xorshift_61_ne_mersenne (fuel seed v : Nat) (hs0 : seed ≠ 0) (hs : seed < 2 ^ 32)
    (h : Xorshift fuel seed 61 = some v) : v ≠ 2 ^ 61 - 1 := by
  intro hv
  have hx0 := xorshiftStep_ne_zero seed hs0
  have hx := xorshiftStep_lt seed hs
  have hb32 := (BitLen_le_iff (xorshiftStep seed) 32).mpr hx
  have hbpos := (BitLen_pos_iff (xorshiftStep seed)).mpr hx0
  -- the run from the first word, under a budget of 60 rounds
  obtain ⟨acc, hacc, hlo, hhi⟩ := XorshiftLoop_spec 61 60 (xorshiftStep seed) (xorshiftStep seed)
    hx0 hx (by omega) (by omega)
  have hlo1 : 61 ≤ BitLen acc := by exact_mod_cast hlo
  have hhi1 : BitLen acc < 93 := by exact_mod_cast hhi
  -- the run of the claim returns the same accumulator
  have hloop : XorshiftLoop fuel seed 0 61 = some acc := by
    cases fuel with
    | zero =>
      have hc : (BitLen 0 : Int) < 61 := by rw [BitLen_zero]; norm_num
      simp [Xorshift, XorshiftLoop, hc] at h
    | succ f =>
      have hc : (BitLen 0 : Int) < 61 := by rw [BitLen_zero]; norm_num
      cases hl : XorshiftLoop (f + 1) seed 0 61 with
      | none => simp [Xorshift, hl] at h
      | some acc1 =>
        have h1 := hl
        simp only [XorshiftLoop, hc, if_true, zero_shiftLeft_or] at h1
        have h2 := XorshiftLoop_fuel_mono 61 60 f _ _ acc1 h1
        have h3 := XorshiftLoop_fuel_mono 61 f 60 _ _ acc hacc
        rw [Nat.add_comm] at h3
        rw [h2] at h3
        exact h3
  have hu : toUint ((BitLen acc : Int) - 61) = BitLen acc - 61 := by
    rw [toUint_of_bounds _ (by omega) (by omega)]
    omega
  have hval : acc >>> (BitLen acc - 61) = 2 ^ 61 - 1 := by
    simp only [Xorshift, hloop, hu, Int.natAbs_ofNat, Option.some.injEq] at h
    rw [h, hv]
  obtain ⟨k, hk, hlen⟩ := XorshiftLoop_prefix 61 60 _ _ acc hx hacc
  have hlen1 := hlen hx0
  have hfirst : (2 ^ 61 - 1) >>> (61 - BitLen (xorshiftStep seed)) = xorshiftStep seed := by
    have e : BitLen acc - 61 + (61 - BitLen (xorshiftStep seed)) = k := by omega
    rw [← hval, ← Nat.shiftRight_add, e]
    exact hk
  have hcand := Xorshift_61_candidates (BitLen (xorshiftStep seed)) (by omega)
  rw [hfirst, hacc] at hcand
  simp only [Option.map_some', ne_eq, Option.some.injEq] at hcand
  exact hcand hval

theorem sampleWitness_eq_shift (fuel n : Nat) (dr : Draw) (a : Nat)
    (h : sampleWitness fuel n dr = Run.done a) :
    ∃ v, Xorshift fuel dr.seed (BitLen n) = some v ∧ a = v >>> dr.shift := by
  unfold sampleWitness at h
  cases hx : Xorshift fuel dr.seed (BitLen n) with
  | none => simp [hx] at h
  | some v =>
    refine ⟨v, rfl, ?_⟩
    by_cases hk : (BitLen n : Int) - 1 ≤ 0
    · simp [hx, Intn, hk] at h
    · simp only [hx, Intn, hk, if_false, Run.done.injEq] at h
      exact h.symm

/-! ## Claim C13 -/

/-- C13: `MillerRabin(2 ^ 61 - 1)` returns true on every run: for every choice of the 20
trials' nonzero 32-bit seeds and shift amounts in `[0, 59]`, and every budget of at least
61 rounds, the result is true. No admissible draw yields a witness that the Mersenne prime
divides. -/
theorem MillerRabin_mersenne_61 (fuel : Nat) (rnd : Nat → Draw)
    (hv : ∀ i, i < 20 → ValidDraw (2 ^ 61 - 1) (rnd i)) (hfuel : 61 ≤ fuel) :
    Nat.Prime (2 ^ 61 - 1) ∧ MillerRabin fuel (2 ^ 61 - 1) rnd = Run.done true := by
  have hlen := BitLen_mersenne_61
  have hfuel1 : BitLen (2 ^ 61 - 1) ≤ fuel := by rw [hlen]; exact hfuel
  obtain ⟨ws, hws⟩ := exists_witnesses fuel (2 ^ 61 - 1) rnd hv hfuel1
  have hws1 : ∀ i, i < 20 → sampleWitness fuel (2 ^ 61 - 1) (rnd i) = Run.done (ws i) :=
    fun i hi => hws i (Nat.zero_le i) (by omega)
  have hnd : ∀ i, i < 20 → ¬ (2 ^ 61 - 1) ∣ ws i := by
    intro i hi hdvd
    obtain ⟨a, ha, hbl, h2, hlt, hle⟩ :=
      sampleWitness_bounds fuel (2 ^ 61 - 1) (rnd i) (hv i hi) hfuel1
    have hwa : ws i = a := by
      have h := hws1 i hi
      rw [ha] at h
      exact (Run.done.inj h).symm
    rw [hwa] at hdvd
    have heq := eq_of_dvd_of_lt_two_mul (2 ^ 61 - 1) a (by omega) (lt_of_lt_of_le hlt hle) hdvd
    obtain ⟨v, hx, hav⟩ := sampleWitness_eq_shift fuel (2 ^ 61 - 1) (rnd i) a ha
    obtain ⟨hs0, hs, _⟩ := hv i hi
    by_cases hsh : (rnd i).shift = 0
    · rw [hsh, Nat.shiftRight_zero] at hav
      rw [hlen] at hx
      have hne := Xorshift_61_ne_mersenne fuel (rnd i).seed v hs0 hs (by exact_mod_cast hx)
      exact hne (by rw [← hav, heq])
    · rw [heq, hlen] at hbl
      omega
  exact ⟨prime_mersenne_61, (MillerRabin_prime_of_not_dvd fuel (2 ^ 61 - 1) rnd ws
    prime_mersenne_61 (by norm_num) (by rw [hlen]; norm_num) hfuel1 hws1 hnd).1⟩

theorem MillerRabin_mersenne_61_witness :
    Nat.Prime (2 ^ 61 - 1) ∧
      MillerRabin 61 (2 ^ 61 - 1) (fun _ => ⟨1, 0⟩) = Run.done true :=
  MillerRabin_mersenne_61 61 (fun _ => ⟨1, 0⟩)
    (fun _ _ => (⟨by decide, by decide, by decide⟩ : ValidDraw (2 ^ 61 - 1) ⟨1, 0⟩))
    (by decide)

end INE5429
